import Mathlib

/-!
Verification of the capability-matching and constraint-model engine of this
repository: the `SolverEngine` class of `src/02.07.py` (the most complete
variant; `src/05.06.py` shares `parse_req` verbatim).  The embedding models
Python floats as rationals, Python dicts as insertion-ordered association
lists with last-write-wins assignment, Python exceptions as `Except Unit`,
and the Z3 oracle as satisfiability of the list of emitted constraints.
-/

namespace CapMatcher

/-- Equality of `Except` results is decidable when both components are. -/
instance {ε α : Type} [DecidableEq ε] [DecidableEq α] : DecidableEq (Except ε α)
  | .error a, .error b =>
      if h : a = b then .isTrue (by rw [h]) else .isFalse (by intro hh; injection hh; exact h ‹_›)
  | .error _, .ok _ => .isFalse (by intro h; cases h)
  | .ok _, .error _ => .isFalse (by intro h; cases h)
  | .ok a, .ok b =>
      if h : a = b then .isTrue (by rw [h]) else .isFalse (by intro hh; injection hh; exact h ‹_›)

/-- Python dict lookup `d.get(k)`: the value of the last binding of `k`. -/
def dictGet {α : Type} (l : List (String × α)) (k : String) : Option α :=
  l.foldl (fun acc kv => if kv.1 = k then some kv.2 else acc) none

/-- Python dict lookup with a default, `d.get(k, d0)`. -/
def dictGetD {α : Type} (l : List (String × α)) (k : String) (d0 : α) : α :=
  (dictGet l k).getD d0

/-- Python dict assignment `d[k] = v`: overwrite the existing binding in
place, otherwise append a new one (insertion order is preserved). -/
def dictInsert {α : Type} (l : List (String × α)) (k : String) (v : α) :
    List (String × α) :=
  if l.any (fun kv => kv.1 = k) then
    l.map (fun kv => if kv.1 = k then (k, v) else kv)
  else l ++ [(k, v)]

/-- Insertion-ordered key set: models the key list of a Python dict whose
value is determined by its key (the `step_vars` dict of Z3 variables). -/
def keyInsert {α : Type} [DecidableEq α] (l : List α) (k : α) : List α :=
  if k ∈ l then l else l ++ [k]

/-- Whether the pattern occurs at the head of the list. -/
def chainAtHead : List Char → List Char → Bool
  | [], _ => true
  | _ :: _, [] => false
  | p :: ps, c :: cs => p == c && chainAtHead ps cs

/-- Python substring test `pat in s`, on character lists. -/
def chainIn (pat : List Char) : List Char → Bool
  | [] => pat.isEmpty
  | c :: cs => chainAtHead pat (c :: cs) || chainIn pat cs

/-- Python substring test `pat in s`. -/
def strIn (pat s : String) : Bool :=
  chainIn pat.toList s.toList

/-- Numeric value of a digit list, most significant digit first. -/
def digitsVal (l : List Char) : Nat :=
  l.foldl (fun n c => 10 * n + (c.toNat - '0'.toNat)) 0

/-- Decimal core of Python `float`: an integer part and an optional single
point with a fractional part, at least one digit overall. -/
def parseDecimalCore (cs : List Char) : Option ℚ :=
  let ip := cs.takeWhile Char.isDigit
  let rest := cs.dropWhile Char.isDigit
  match rest with
  | [] => if ip.isEmpty then none else some (digitsVal ip)
  | '.' :: fs =>
      if fs.all Char.isDigit && !(ip.isEmpty && fs.isEmpty) then
        some ((digitsVal ip : ℚ) + (digitsVal fs : ℚ) / (10 : ℚ) ^ fs.length)
      else none
  | _ => none

/-- Python whitespace strip, on character lists. -/
def trimChars (cs : List Char) : List Char :=
  ((cs.dropWhile Char.isWhitespace).reverse.dropWhile Char.isWhitespace).reverse

/-- Python `float(s)` on plain decimal literals: optional surrounding
whitespace and sign, digits with an optional point.  Exponent, `inf` and
`nan` forms do not occur in the analysed inputs and map to a parse
failure (`none`), exactly like any other malformed literal. -/
def pyFloatChars (cs : List Char) : Option ℚ :=
  match trimChars cs with
  | '+' :: rest => parseDecimalCore rest
  | '-' :: rest => (parseDecimalCore rest).map (fun q => -q)
  | rest => parseDecimalCore rest

/-- ASCII lower-casing of one character; the identifiers and mode strings
the engine lowercases are ASCII, so this matches Python `str.lower`. -/
def lowerChar (c : Char) : Char :=
  if 65 ≤ c.toNat ∧ c.toNat ≤ 90 then Char.ofNat (c.toNat + 32) else c

/-- Python `s.lower()`. -/
def pyLower (s : String) : String :=
  ⟨s.data.map lowerChar⟩

/-- Python `s.strip()`. -/
def pyTrim (s : String) : String :=
  ⟨((s.data.dropWhile Char.isWhitespace).reverse.dropWhile Char.isWhitespace).reverse⟩

/-- Python `s.split("::")`: non-overlapping split at double colons. -/
def splitOnColons : List Char → List (List Char)
  | [] => [[]]
  | ':' :: ':' :: rest => [] :: splitOnColons rest
  | c :: rest =>
      match splitOnColons rest with
      | [] => [[c]]
      | g :: gs => (c :: g) :: gs

/-- Python `s.split(sep)` for a one-character separator. -/
def splitOnChar (sep : Char) : List Char → List (List Char)
  | [] => [[]]
  | c :: cs =>
      if c == sep then [] :: splitOnChar sep cs
      else
        match splitOnChar sep cs with
        | [] => [[c]]
        | g :: gs => (c :: g) :: gs

/-- Whether the list starts with the two characters `a`, `b`. -/
def startsWith2 (a b : Char) : List Char → Bool
  | x :: y :: _ => x == a && y == b
  | _ => false

/-- `SolverEngine.parse_req` (`02.07.py` lines 23-32, identical in
`05.06.py` lines 17-25): strip the string, recognise a `>=` or `<=` bound,
otherwise split on `-` into a two-element range, otherwise read an exact
value.  A malformed string raises `ValueError`, modelled as
`Except.error`. -/
def parseReqChars (cs0 : List Char) : Except Unit (Option ℚ × Option ℚ) :=
  let s := trimChars cs0
  if startsWith2 '>' '=' s then
    match pyFloatChars (s.drop 2) with
    | some v => .ok (some v, none)
    | none => .error ()
  else if startsWith2 '<' '=' s then
    match pyFloatChars (s.drop 2) with
    | some v => .ok (none, some v)
    | none => .error ()
  else if s.contains '-' then
    match splitOnChar '-' s with
    | [a, b] =>
        match pyFloatChars a, pyFloatChars b with
        | some lo, some hi => .ok (some lo, some hi)
        | _, _ => .error ()
    | _ => .error ()
  else
    match pyFloatChars s with
    | some v => .ok (some v, some v)
    | none => .error ()

/-- `parse_req` on a Lean string. -/
def parse_req (s : String) : Except Unit (Option ℚ × Option ℚ) :=
  parseReqChars s.toList

/-- A requirement or capability range: optional low and high bound. -/
abbrev Rng := Option ℚ × Option ℚ

/-- Rejection reasons, as structured data in place of the Python message
strings (the engine only ever tests them for emptiness; downstream display
is out of scope). -/
inductive Reason where
  | semMismatch (need : String) (chain : List String)
  | missingParam (k : String)
  | rangeMax (k : String) (capHi reqLo : ℚ)
  | rangeMin (k : String) (capLo reqHi : ℚ)
deriving DecidableEq

/-- Range-feasibility check for one required parameter (`02.07.py`
lines 285-288): a reason is recorded when the capability's high bound lies
below the requirement's low bound, and another when the capability's low
bound lies above the requirement's high bound; a comparison is skipped when
the relevant bound is absent on either side. -/
def rangeReasons (k : String) (req : Rng) (cap : Rng) : List Reason :=
  (match req.1, cap.2 with
   | some lo, some chi => if chi < lo then [Reason.rangeMax k chi lo] else []
   | _, _ => []) ++
  (match req.2, cap.1 with
   | some hi, some clo => if clo > hi then [Reason.rangeMin k clo hi] else []
   | _, _ => [])

/-- A raw JSON scalar as the Python code sees it: a number or a string. -/
inductive PyVal where
  | num (q : ℚ)
  | str (s : String)
deriving DecidableEq

/-- Python truthiness of an optional raw value: absent, zero and the empty
string are falsy. -/
def pyTruthy : Option PyVal → Bool
  | none => false
  | some (.num q) => decide (q ≠ 0)
  | some (.str s) => decide (s ≠ "")

/-- Python `a or b or None`. -/
def pyOr (a b : Option PyVal) : Option PyVal :=
  if pyTruthy a then a else if pyTruthy b then b else none

/-- Python `float(v)` on a raw value. -/
def pyFloatVal : PyVal → Option ℚ
  | .num q => some q
  | .str s => pyFloatChars s.toList

/-- A raw capability property entry as loaded from the JSON document. -/
structure RawProp where
  property_ID : Option String
  valueMin : Option PyVal
  value0 : Option PyVal
  valueMax : Option PyVal
  value1 : Option PyVal
deriving DecidableEq

/-- `None if vm is None else float(vm)` (`02.07.py` lines 93-94): the outer
`none` means `float` raised. -/
def optFloat : Option PyVal → Option (Option ℚ)
  | none => some none
  | some v => (pyFloatVal v).map some

/-- Bound extraction for one property (`02.07.py` lines 90-94): the raw low
bound is `valueMin or value0 or None`, the raw high `valueMax or value1 or
None`, then both are converted with `float`; `none` means a conversion
raised, in which case the property is dropped by the caller. -/
def propBounds (p : RawProp) : Option Rng :=
  match optFloat (pyOr p.valueMin p.value0), optFloat (pyOr p.valueMax p.value1) with
  | some lo, some hi => some (lo, hi)
  | _, _ => none

/-- The properties loop of `SolverEngine.build_capabilities` (`02.07.py`
lines 87-98): build the parameter-range dict of one capability, dropping a
property whose chosen bound fails numeric parsing (the `except: continue`)
or whose `property_ID` is not a non-empty string. -/
def buildProps (ps : List RawProp) : List (String × Rng) :=
  ps.foldl
    (fun props p =>
      match propBounds p with
      | some r =>
          match p.property_ID with
          | some pid => if pid ≠ "" then dictInsert props pid r else props
          | none => props
      | none => props)
    []

/-- All parent lists occurring in the hierarchy dict: the universe from
which the traversal can draw new nodes (used only for termination). -/
def allParents (h : List (String × List String)) : List String :=
  (h.map Prod.snd).join

/-- One visit of the ancestor worklist traversal (`02.07.py` lines 52-56):
walk the current node's parent list, adding each unseen parent to the
ancestor set and pushing it onto the worklist. -/
def ancVisit (pr anc rest : List String) : List String × List String :=
  pr.foldl (fun acc p => if p ∈ acc.1 then acc else (p :: acc.1, p :: acc.2)) (anc, rest)

theorem ancVisit_shape (pr : List String) : ∀ anc rest : List String,
    ∃ ds : List String,
      (ancVisit pr anc rest).1 = ds ++ anc ∧
      (ancVisit pr anc rest).2 = ds ++ rest ∧
      ds.Nodup ∧
      (∀ x ∈ ds, x ∈ pr ∧ x ∉ anc) ∧
      (∀ p ∈ pr, p ∈ ds ∨ p ∈ anc) := by
  induction pr with
  | nil =>
    intro anc rest
    exact ⟨[], rfl, rfl, List.nodup_nil, by simp, by simp⟩
  | cons p pr ih =>
    intro anc rest
    by_cases hp : p ∈ anc
    · have hstep : ancVisit (p :: pr) anc rest = ancVisit pr anc rest := by
        simp [ancVisit, hp]
      rw [hstep]
      obtain ⟨ds, h1, h2, h3, h4, h5⟩ := ih anc rest
      refine ⟨ds, h1, h2, h3, ?_, ?_⟩
      · intro x hx
        obtain ⟨hx1, hx2⟩ := h4 x hx
        exact ⟨List.mem_cons_of_mem _ hx1, hx2⟩
      · intro q hq
        rcases List.mem_cons.1 hq with rfl | hq
        · exact Or.inr hp
        · exact h5 q hq
    · have hstep : ancVisit (p :: pr) anc rest = ancVisit pr (p :: anc) (p :: rest) := by
        simp [ancVisit, hp]
      rw [hstep]
      obtain ⟨ds, h1, h2, h3, h4, h5⟩ := ih (p :: anc) (p :: rest)
      have hpds : p ∉ ds := fun hmem => (h4 p hmem).2 (List.mem_cons_self p anc)
      refine ⟨ds ++ [p], by rw [h1]; simp, by rw [h2]; simp, ?_, ?_, ?_⟩
      · rw [List.nodup_append]
        refine ⟨h3, List.nodup_singleton p, ?_⟩
        intro x hx hxp
        rw [List.mem_singleton] at hxp
        exact hpds (hxp ▸ hx)
      · intro x hx
        rcases List.mem_append.1 hx with hx | hx
        · obtain ⟨hx1, hx2⟩ := h4 x hx
          exact ⟨List.mem_cons_of_mem _ hx1, fun hxa => hx2 (List.mem_cons_of_mem _ hxa)⟩
        · rw [List.mem_singleton] at hx
          subst hx
          exact ⟨List.mem_cons_self _ _, hp⟩
      · intro q hq
        rcases List.mem_cons.1 hq with rfl | hq
        · exact Or.inl (List.mem_append.2 (Or.inr (List.mem_singleton.2 rfl)))
        · rcases h5 q hq with hd | ha
          · exact Or.inl (List.mem_append.2 (Or.inl hd))
          · rcases List.mem_cons.1 ha with rfl | ha
            · exact Or.inl (List.mem_append.2 (Or.inr (List.mem_singleton.2 rfl)))
            · exact Or.inr ha

theorem foldlGet_eq {α : Type} (k : String) (v : α) :
    ∀ (l : List (String × α)) (acc : Option α),
      l.foldl (fun a kv => if kv.1 = k then some kv.2 else a) acc = some v →
      (k, v) ∈ l ∨ acc = some v := by
  intro l
  induction l with
  | nil =>
    intro acc hacc
    exact Or.inr hacc
  | cons kv l ih =>
    intro acc hacc
    rcases ih _ hacc with hm | hif
    · exact Or.inl (List.mem_cons_of_mem _ hm)
    · dsimp only at hif
      by_cases hk : kv.1 = k
      · rw [if_pos hk] at hif
        left
        have hv2 : kv.2 = v := by injection hif
        have hkv : kv = (k, v) := by
          obtain ⟨a, b⟩ := kv
          simp only [Prod.mk.injEq]
          exact ⟨hk, hv2⟩
        rw [hkv]
        exact List.mem_cons_self _ _
      · rw [if_neg hk] at hif
        exact Or.inr hif

theorem dictGet_mem {α : Type} {l : List (String × α)} {k : String} {v : α}
    (hv : dictGet l k = some v) : (k, v) ∈ l := by
  rcases foldlGet_eq k v l none hv with hm | hc
  · exact hm
  · cases hc

theorem dictGetD_sub_allParents (h : List (String × List String)) (k : String) :
    ∀ x ∈ dictGetD h k [], x ∈ allParents h := by
  intro x hx
  unfold dictGetD at hx
  cases hg : dictGet h k with
  | none => rw [hg] at hx; cases hx
  | some v =>
      rw [hg] at hx
      simp only [Option.getD_some] at hx
      have hmem := dictGet_mem hg
      unfold allParents
      rw [List.mem_join]
      exact ⟨v, List.mem_map_of_mem Prod.snd hmem, hx⟩

/-- Worklist loop of `SolverEngine.get_all_ancestor_types` (`02.07.py`
lines 50-56).  The Python worklist is kept top-first here, since Python
pops from the right end and appends new parents there; the ancestor set is
a list used only for membership.  Termination holds for every finite
parent graph, cycles included, because each visit either shrinks the
worklist or adds a previously unseen node drawn from the finite universe
of declared parents. -/
def ancWorklist (h : List (String × List String)) : List String → List String → List String
  | [], anc => anc
  | cur :: rest, anc =>
      let st := ancVisit (dictGetD h cur []) anc rest
      ancWorklist h st.2 st.1
termination_by wl anc => ((allParents h).toFinset \ anc.toFinset).card + wl.length
decreasing_by
  simp_wf
  obtain ⟨ds, h1, h2, h3, h4, _⟩ := ancVisit_shape (dictGetD h cur []) anc rest
  rw [h1, h2]
  have hsub : ds.toFinset ⊆ (allParents h).toFinset \ anc.toFinset := by
    intro x hx
    rw [List.mem_toFinset] at hx
    obtain ⟨hx1, hx2⟩ := h4 x hx
    rw [Finset.mem_sdiff, List.mem_toFinset, List.mem_toFinset]
    exact ⟨dictGetD_sub_allParents h cur x hx1, hx2⟩
  have hcard : ((allParents h).toFinset \ (ds ++ anc).toFinset).card
      = ((allParents h).toFinset \ anc.toFinset).card - ds.toFinset.card := by
    rw [List.toFinset_append]
    have : (allParents h).toFinset \ (ds.toFinset ∪ anc.toFinset)
        = ((allParents h).toFinset \ anc.toFinset) \ ds.toFinset := by
      ext x
      simp only [Finset.mem_sdiff, Finset.mem_union]
      tauto
    rw [this, Finset.card_sdiff hsub]
  have hlen : ds.toFinset.card = ds.length := List.toFinset_card_of_nodup h3
  have hle : ds.toFinset.card ≤ ((allParents h).toFinset \ anc.toFinset).card :=
    Finset.card_le_card hsub
  rw [List.length_append, hcard]
  omega

/-- `SolverEngine.get_all_ancestor_types` (`02.07.py` lines 45-57):
ancestors of a semantic type, including the type itself. -/
def get_all_ancestor_types (h : List (String × List String)) (t : String) : List String :=
  ancWorklist h [t] [t]

/-- Reachability along `generalized_by` parent edges of the semantic
hierarchy dict. -/
inductive Reach (h : List (String × List String)) : String → String → Prop
  | refl (a : String) : Reach h a a
  | step {a b c : String} : Reach h a b → c ∈ dictGetD h b [] → Reach h a c

theorem Reach.trans_chain {h : List (String × List String)} {a b c : String}
    (hab : Reach h a b) (hbc : Reach h b c) : Reach h a c := by
  induction hbc with
  | refl => exact hab
  | step _ hedge ih => exact Reach.step ih hedge

theorem ancWorklist_spec (h : List (String × List String)) (t : String) :
    ∀ wl anc : List String,
      (∀ x ∈ wl, x ∈ anc) →
      (∀ x ∈ anc, Reach h t x) →
      (∀ x ∈ anc, x ∈ wl ∨ ∀ p ∈ dictGetD h x [], p ∈ anc) →
      (∀ x ∈ anc, x ∈ ancWorklist h wl anc) ∧
      (∀ x ∈ ancWorklist h wl anc, Reach h t x) ∧
      (∀ x ∈ ancWorklist h wl anc, ∀ p ∈ dictGetD h x [], p ∈ ancWorklist h wl anc) := by
  intro wl anc
  induction wl, anc using ancWorklist.induct h with
  | case1 anc =>
    intro _ hsound hcl
    rw [ancWorklist]
    refine ⟨fun x hx => hx, hsound, ?_⟩
    intro x hx p hp
    rcases hcl x hx with hw | hc
    · cases hw
    · exact hc p hp
  | case2 cur rest anc st ih =>
    intro hwl hsound hcl
    obtain ⟨ds, h1, h2, h3, h4, h5⟩ := ancVisit_shape (dictGetD h cur []) anc rest
    have h1' : st.1 = ds ++ anc := h1
    have h2' : st.2 = ds ++ rest := h2
    have hcur : cur ∈ anc := hwl cur (List.mem_cons_self _ _)
    have hrcur : Reach h t cur := hsound cur hcur
    have hwl' : ∀ x ∈ st.2, x ∈ st.1 := by
      rw [h1', h2']
      intro x hx
      rcases List.mem_append.1 hx with hx | hx
      · exact List.mem_append.2 (Or.inl hx)
      · exact List.mem_append.2 (Or.inr (hwl x (List.mem_cons_of_mem _ hx)))
    have hsound' : ∀ x ∈ st.1, Reach h t x := by
      rw [h1']
      intro x hx
      rcases List.mem_append.1 hx with hx | hx
      · exact Reach.step hrcur (h4 x hx).1
      · exact hsound x hx
    have hcl' : ∀ x ∈ st.1, x ∈ st.2 ∨ ∀ p ∈ dictGetD h x [], p ∈ st.1 := by
      rw [h1', h2']
      intro x hx
      rcases List.mem_append.1 hx with hx | hx
      · exact Or.inl (List.mem_append.2 (Or.inl hx))
      · rcases hcl x hx with hw | hc
        · rcases List.mem_cons.1 hw with rfl | hw
          · right
            intro p hp
            rcases h5 p hp with hd | ha
            · exact List.mem_append.2 (Or.inl hd)
            · exact List.mem_append.2 (Or.inr ha)
          · exact Or.inl (List.mem_append.2 (Or.inr hw))
        · exact Or.inr fun p hp => List.mem_append.2 (Or.inr (hc p hp))
    obtain ⟨ih1, ih2, ih3⟩ := ih hwl' hsound' hcl'
    rw [ancWorklist]
    refine ⟨?_, ih2, ih3⟩
    intro x hx
    apply ih1
    rw [h1']
    exact List.mem_append.2 (Or.inr hx)

theorem mem_ancestors_iff (h : List (String × List String)) (t x : String) :
    x ∈ get_all_ancestor_types h t ↔ Reach h t x := by
  have hspec := ancWorklist_spec h t [t] [t]
    (by intro y hy; exact hy)
    (by
      intro y hy
      rcases List.mem_cons.1 hy with rfl | hy
      · exact Reach.refl _
      · cases hy)
    (by intro y hy; exact Or.inl hy)
  obtain ⟨hsup, hsound, hclosed⟩ := hspec
  constructor
  · intro hx
    exact hsound x hx
  · intro hr
    induction hr with
    | refl => exact hsup t (List.mem_cons_self _ _)
    | step _ hedge ih => exact hclosed _ ih _ hedge

/-- A step requirement parameter: one entry of a step's `Parameters` list. -/
structure Param where
  Key : String
  ValueString : String
deriving DecidableEq

/-- A recipe step of `rec_data['ProcessElements']`. -/
structure Step where
  ID : String
  SemanticDescription : String
  Parameters : List Param
deriving DecidableEq

/-- One entry of `SolverEngine.cap_list` as built by `build_capabilities`. -/
structure Cap where
  id : String
  name : String
  semantic_type : String
  all_semantic_types : List String
  props : List (String × Rng)
deriving DecidableEq

/-- The `SolverEngine` state that `build_constraints` and
`determine_transport_mode` read: the capability catalog, the loaded step
list, the step-id list set by `load_data`, and the resources assigned by
the latest `solve`. -/
structure Engine where
  cap_list : List Cap
  steps : List Step
  step_ids : List String
  assigned_resources : List (String × String)
deriving DecidableEq

/-- The params dict of a step (`02.07.py` line 256). -/
def paramsDict (ps : List Param) : List (String × String) :=
  ps.foldl (fun d p => dictInsert d p.Key p.ValueString) []

/-- `desc.split('#')[-1]`: the fragment after the last hash. -/
def splitHashLast (s : String) : String :=
  ⟨(splitOnChar '#' s.data).getLastD []⟩

/-- `desc.split('#')[-1] if '#' in desc else desc` (`02.07.py` line 260). -/
def lastHash (s : String) : String :=
  if s.data.contains '#' then splitHashLast s else s

/-- `desc.split('#')[-1].lower()` (`02.07.py` lines 189 and 315). -/
def lastHashLower (s : String) : String :=
  pyLower (splitHashLast s)

/-- The range-constraint loop over a step's params dict (`02.07.py`
lines 280-288), collecting all violated parameters; `parse_req` may raise
here, and the exception propagates. -/
def rangeCheckAll : List (String × String) → List (String × Rng) → Except Unit (List Reason)
  | [], _ => .ok []
  | (k, vstr) :: rest, props => do
      let r ← parse_req vstr
      let tail ← rangeCheckAll rest props
      pure (rangeReasons k r (dictGetD props k (none, none)) ++ tail)

/-- Classification of one capability against one step (`02.07.py`
lines 263-292): semantic-type check, then missing-parameter check, then the
range check; `none` means valid, `some reasons` invalid. -/
def capCheck (step_semantic : String) (params : List (String × String)) (cap : Cap) :
    Except Unit (Option (List Reason)) :=
  if ((cap.all_semantic_types.map pyLower).contains (pyLower step_semantic)) = false then
    .ok (some [Reason.semMismatch step_semantic cap.all_semantic_types])
  else
    let missing := (params.map Prod.fst).filter
      (fun k => (cap.props.any (fun kv => kv.1 = k)) = false)
    if missing.isEmpty = false then
      .ok (some (missing.map Reason.missingParam))
    else do
      let reasons ← rangeCheckAll params cap.props
      pure (if reasons.isEmpty then none else some reasons)

/-- The capability loop of `build_constraints` for one step (`02.07.py`
lines 262-292), accumulating the ordered valid list and the invalid dict. -/
def classifyCaps (step_semantic : String) (params : List (String × String)) :
    List Cap → List String × List (String × List Reason) →
    Except Unit (List String × List (String × List Reason))
  | [], acc => .ok acc
  | cap :: rest, acc => do
      let c ← capCheck step_semantic params cap
      match c with
      | none => classifyCaps step_semantic params rest (acc.1 ++ [cap.id], acc.2)
      | some rs => classifyCaps step_semantic params rest (acc.1, dictInsert acc.2 cap.id rs)

/-- Eligibility of all capabilities for one step: valid ids in catalog
order, plus the itemized invalid dict. -/
def eligibleForStep (cap_list : List Cap) (st : Step) :
    Except Unit (List String × List (String × List Reason)) :=
  classifyCaps (lastHash st.SemanticDescription) (paramsDict st.Parameters) cap_list ([], [])

/-- `02.07.py` line 18. -/
def TRANSPORT_TYPES : List String := ["dosing", "transporting", "conveying"]

/-- `02.07.py` line 19. -/
def TRANSPORT_MODES : List String := ["feed", "discharge", "transfer"]

/-- `cid.split("::")[0]`: the resource owning a capability id. -/
def resOf (cid : String) : String :=
  ⟨(splitOnColons cid.data).headD []⟩

/-- Step-identifier hints of `determine_transport_mode` (`02.07.py`
lines 202-209). -/
def idHintMode (sidLower : String) : Option String :=
  if strIn "feed" sidLower || strIn "inlet" sidLower || strIn "input" sidLower then
    some "feed"
  else if strIn "discharge" sidLower || strIn "outlet" sidLower || strIn "output" sidLower then
    some "discharge"
  else if strIn "transfer" sidLower || strIn "move" sidLower || strIn "convey" sidLower
      || strIn "dosing" sidLower then
    some "transfer"
  else none

/-- Parameter-name hints of `determine_transport_mode` (`02.07.py`
lines 211-218): a nonempty intersection of the lowered key set with the
fixed indicative sets. -/
def paramHintMode (params : List Param) : Option String :=
  if params.any (fun p => ["feedrate", "inletflow", "feed_flow"].contains (pyLower p.Key)) then
    some "feed"
  else if params.any (fun p =>
      ["dischargerate", "outlettarget", "discharge_flow"].contains (pyLower p.Key)) then
    some "discharge"
  else if params.any (fun p =>
      ["transferdistance", "conveyorspeed", "transfer_time"].contains (pyLower p.Key)) then
    some "transfer"
  else none

/-- Material-flow analysis and default of `determine_transport_mode`
(`02.07.py` lines 220-235): compare the resources assigned to the previous,
current and next step when all three are known, else fall through to the
default `transfer`. -/
def flowRule (sids : List String) (assigned : List (String × String)) (sid : String)
    (j : Nat) : String :=
  if 0 < j ∧ j < sids.length - 1 then
    let prev_r := resOf (dictGetD assigned (sids.getD (j - 1) "") "")
    let next_r := resOf (dictGetD assigned (sids.getD (j + 1) "") "")
    let cur_r := resOf (dictGetD assigned sid "")
    if cur_r ≠ "" ∧ prev_r ≠ "" ∧ next_r ≠ "" then
      if cur_r ≠ prev_r ∧ cur_r = next_r then "feed"
      else if cur_r = prev_r ∧ cur_r ≠ next_r then "discharge"
      else if cur_r ≠ prev_r ∧ cur_r ≠ next_r then "transfer"
      else "transfer"
    else "transfer"
  else "transfer"

/-- The fall-through chain of `determine_transport_mode` after the
explicit-mode check: identifier hints, then parameter hints, then the
material-flow analysis with its default. -/
def transportModeHints (sids : List String) (assigned : List (String × String))
    (sid : String) (params : List Param) (j : Nat) : String :=
  match idHintMode (pyLower sid) with
  | some m => m
  | none =>
      match paramHintMode params with
      | some m => m
      | none => flowRule sids assigned sid j

/-- `SolverEngine.determine_transport_mode` (`02.07.py` lines 181-235). -/
def determineTransportMode (sids : List String) (assigned : List (String × String))
    (st : Step) (j : Nat) : Option String :=
  if j = 0 ∨ j = sids.length - 1 then none
  else if TRANSPORT_TYPES.contains (lastHashLower st.SemanticDescription) = false then none
  else
    match st.Parameters.find? (fun p => pyLower p.Key = "mode") with
    | some p =>
        let mode := pyTrim (pyLower p.ValueString)
        if TRANSPORT_MODES.contains mode then some mode
        else some (transportModeHints sids assigned st.ID st.Parameters j)
    | none => some (transportModeHints sids assigned st.ID st.Parameters j)

/-- The transport-mode pass of `build_constraints` (`02.07.py`
lines 245-252): pair every step with its resolved `_transport_mode`, which
is `none` for first and last steps. -/
def computeModes (sids : List String) (assigned : List (String × String)) :
    List Step → Nat → List (Step × Option String)
  | [], _ => []
  | st :: rest, j =>
      (st, if 0 < j ∧ j < sids.length - 1 then determineTransportMode sids assigned st j
           else none) :: computeModes sids assigned rest (j + 1)

/-- The constraint formulas `build_constraints` hands to the oracle, one
constructor per Z3 pattern the Python code emits:
`falseF` is `solver.add(False)`;
`atLeastOne sid cids` is `Or` over the step's selection variables;
`mutex sid c1 c2` is `Not(And(v1, v2))`;
`implOr sid cid tgt cids` is `Implies(var, Or(...))` over the variables of
the target step `tgt` restricted to `cids`;
`notVar sid cid` is `Not(var)`. -/
inductive Fml where
  | falseF
  | atLeastOne (sid : String) (cids : List String)
  | mutex (sid : String) (c1 c2 : String)
  | implOr (sid cid : String) (tgt : String) (cids : List String)
  | notVar (sid cid : String)
deriving DecidableEq

/-- Truth value of a constraint under an assignment of the boolean
selection variables, which are indexed by (step id, capability id). -/
def evalC (σ : String → String → Bool) : Fml → Bool
  | .falseF => false
  | .atLeastOne sid cids => cids.any (fun c => σ sid c)
  | .mutex sid c1 c2 => !(σ sid c1 && σ sid c2)
  | .implOr sid cid tgt cids => !(σ sid cid) || cids.any (fun c => σ tgt c)
  | .notVar sid cid => !(σ sid cid)

/-- An assignment satisfies the constraint model. -/
def satAssign (σ : String → String → Bool) (fs : List Fml) : Prop :=
  fs.all (evalC σ) = true

instance (σ : String → String → Bool) (fs : List Fml) : Decidable (satAssign σ fs) :=
  inferInstanceAs (Decidable (_ = true))

theorem satAssign_mem {σ : String → String → Bool} {fs : List Fml} {f : Fml}
    (hs : satAssign σ fs) (hf : f ∈ fs) : evalC σ f = true :=
  List.all_eq_true.1 hs f hf

/-- The oracle reports UNSAT: no assignment satisfies the model. -/
def modelUNSAT (fs : List Fml) : Prop :=
  ∀ σ : String → String → Bool, ¬ satAssign σ fs

/-- The ordered pairs `(l[i], l[j])` with `i < j`: the double loop of the
mutual-exclusion constraints (`02.07.py` lines 308-310). -/
def pairsAfter {α : Type} : List α → List (α × α)
  | [] => []
  | x :: xs => xs.map (fun y => (x, y)) ++ pairsAfter xs

/-- Per-step base constraints (`02.07.py` lines 297-310): an unconditional
`False` when the step has no valid capability, otherwise at-least-one plus
pairwise mutual exclusion. -/
def stepBaseConstraints (sid : String) (valid : List String) : List Fml :=
  match valid with
  | [] => [Fml.falseF]
  | _ => Fml.atLeastOne sid valid ::
      (pairsAfter valid).map (fun pr => Fml.mutex sid pr.1 pr.2)

/-- Python `list.index`: first index of an element, `ValueError` when
absent. -/
def listIndexOf : List String → String → Option Nat
  | [], _ => none
  | a :: as, x => if a = x then some 0 else (listIndexOf as x).map (· + 1)

/-- `all_step_ids.index(step_id)` as used by the transport handlers. -/
def pyIndex (l : List String) (x : String) : Except Unit Nat :=
  match listIndexOf l x with
  | some i => .ok i
  | none => .error ()

/-- `SolverEngine._handle_feed_mode` (`02.07.py` lines 107-126). -/
def handleFeedMode (vm : List (String × List String)) (sid : String)
    (all_step_ids : List String) : Except Unit (List Fml) :=
  match pyIndex all_step_ids sid with
  | .error u => .error u
  | .ok idx =>
      if idx = 0 then .ok []
      else
        let prev_step := all_step_ids.getD (idx - 1) ""
        .ok ((dictGetD vm sid []).map (fun cap_id =>
          let resource := resOf cap_id
          let prev_vars := (dictGetD vm prev_step []).filter (fun pc => resOf pc = resource)
          if prev_vars.isEmpty = false then Fml.implOr sid cap_id prev_step prev_vars
          else Fml.notVar sid cap_id))

/-- `SolverEngine._handle_discharge_mode` (`02.07.py` lines 128-147). -/
def handleDischargeMode (vm : List (String × List String)) (sid : String)
    (all_step_ids : List String) : Except Unit (List Fml) :=
  match pyIndex all_step_ids sid with
  | .error u => .error u
  | .ok idx =>
      if idx = all_step_ids.length - 1 then .ok []
      else
        let next_step := all_step_ids.getD (idx + 1) ""
        .ok ((dictGetD vm sid []).map (fun cap_id =>
          let resource := resOf cap_id
          let next_vars := (dictGetD vm next_step []).filter (fun nc => resOf nc = resource)
          if next_vars.isEmpty = false then Fml.implOr sid cap_id next_step next_vars
          else Fml.notVar sid cap_id))

/-- One side of the transfer rule (`02.07.py` lines 160-179): the target
step must have a variable on a different resource; the selected variable
implies their disjunction, or is forced false when none exists. -/
def transferSideFml (vm : List (String × List String)) (sid tgt cap_id : String) : Fml :=
  let vs := (dictGetD vm tgt []).filter (fun pc => resOf pc ≠ resOf cap_id)
  if vs.isEmpty = false then Fml.implOr sid cap_id tgt vs else Fml.notVar sid cap_id

/-- `SolverEngine._handle_transfer_mode` (`02.07.py` lines 149-179). -/
def handleTransferMode (vm : List (String × List String)) (sid : String)
    (all_step_ids : List String) : Except Unit (List Fml) :=
  match pyIndex all_step_ids sid with
  | .error u => .error u
  | .ok idx =>
      let prev_step := if 0 < idx then some (all_step_ids.getD (idx - 1) "") else none
      let next_step :=
        if idx < all_step_ids.length - 1 then some (all_step_ids.getD (idx + 1) "") else none
      .ok (((dictGetD vm sid []).map (fun cap_id =>
        (match prev_step with
         | none => []
         | some p => [transferSideFml vm sid p cap_id]) ++
        (match next_step with
         | none => []
         | some n => [transferSideFml vm sid n cap_id]))).join)

/-- Monadic map over `Except`, unfolded for easy reasoning; the first
raised exception aborts the whole loop, exactly like the Python for-loop. -/
def exMapM {α β : Type} (f : α → Except Unit β) : List α → Except Unit (List β)
  | [] => .ok []
  | a :: as =>
      match f a with
      | .error u => .error u
      | .ok b =>
          match exMapM f as with
          | .error u => .error u
          | .ok bs => .ok (b :: bs)

/-- One iteration of the transport-constraint pass (`02.07.py`
lines 313-326): a transport-typed step with a resolved mode contributes the
constraints of the matching handler. -/
def transportStepConstraints (sids : List String) (vm : List (String × List String))
    (sm : Step × Option String) : Except Unit (List Fml) :=
  if TRANSPORT_TYPES.contains (lastHashLower sm.1.SemanticDescription)
      && sm.2.isSome then
    match sm.2.getD "transfer" with
    | "feed" => handleFeedMode vm sm.1.ID sids
    | "discharge" => handleDischargeMode vm sm.1.ID sids
    | "transfer" => handleTransferMode vm sm.1.ID sids
    | _ => .ok []
  else .ok []

/-- The transport-constraint pass of `build_constraints` (`02.07.py`
lines 312-326). -/
def transportConstraints (sids : List String) (vm : List (String × List String))
    (modes : List (Step × Option String)) : Except Unit (List Fml) :=
  match exMapM (transportStepConstraints sids vm) modes with
  | .error u => .error u
  | .ok ls => .ok ls.join

/-- What `build_constraints` leaves behind: the eligibility mappings, the
created selection variables (in creation order, also the objective's
variable list), and the emitted constraints in emission order. -/
structure BuildModel where
  valid_mapping : List (String × List String)
  invalid_mapping : List (String × List (String × List Reason))
  step_vars : List (String × String)
  constraints : List Fml
deriving DecidableEq

/-- Eligibility of one step tagged with its id, as stored into
`valid_mapping` / `invalid_mapping`. -/
def stepElig (cap_list : List Cap) (st : Step) :
    Except Unit (String × List String × List (String × List Reason)) :=
  match eligibleForStep cap_list st with
  | .error u => .error u
  | .ok r => .ok (st.ID, r.1, r.2)

/-- `SolverEngine.build_constraints` (`02.07.py` lines 237-333): resolve
transport modes, classify capabilities per step, emit the per-step base
constraints, then the transport-continuity constraints.  The objective
(maximize the sum over `step_vars`) is determined by the `step_vars`
field.  An uncaught `parse_req` exception aborts the build. -/
def buildConstraints (e : Engine) : Except Unit BuildModel :=
  match exMapM (stepElig e.cap_list) e.steps with
  | .error u => .error u
  | .ok elig =>
      match transportConstraints e.step_ids
          (elig.foldl (fun d x => dictInsert d x.1 x.2.1) [])
          (computeModes e.step_ids e.assigned_resources e.steps 0) with
      | .error u => .error u
      | .ok tr =>
          .ok ⟨elig.foldl (fun d x => dictInsert d x.1 x.2.1) [],
               elig.foldl (fun d x => dictInsert d x.1 x.2.2) [],
               elig.foldl (fun acc x => x.2.1.foldl (fun a c => keyInsert a (x.1, c)) acc) [],
               (elig.map (fun x => stepBaseConstraints x.1 x.2.1)).join ++ tr⟩

/-- The assignment extraction of `SolverEngine.solve` (`02.07.py`
lines 341-348): for each step id, record the first valid capability whose
variable is true. -/
def extractAssigned (σ : String → String → Bool) (sids : List String)
    (vm : List (String × List String)) : List (String × String) :=
  sids.foldl
    (fun acc sid =>
      match (dictGetD vm sid []).find? (fun c => σ sid c) with
      | some c => dictInsert acc sid c
      | none => acc) []

/-- Fixture: the spec's scenario capability `R1::Heat` of semantic type
`HeatingProcess` with `temp` range [20,100]. -/
def heatCap : Cap :=
  ⟨"R1::Heat", "Heat", "HeatingProcess", ["HeatingProcess"], [("temp", (some 20, some 100))]⟩

/-- Fixture: a second heating capability on resource `R2`. -/
def heatCapB : Cap :=
  ⟨"R2::Heat", "Heat", "HeatingProcess", ["HeatingProcess"], [("temp", (some 0, some 200))]⟩

/-- Fixture: step `S1` demanding `HeatingProcess` with `temp = "50"`. -/
def heatStep : Step := ⟨"S1", "HeatingProcess", [⟨"temp", "50"⟩]⟩

/-- Fixture: step `S1` demanding a type no capability offers. -/
def mixStep : Step := ⟨"S1", "Mixing", [⟨"temp", "50"⟩]⟩

/-- Fixture: step `S1` with a malformed requirement string. -/
def badStep : Step := ⟨"S1", "HeatingProcess", [⟨"temp", "abc"⟩]⟩

/-- Fixture: engine whose only step no capability can cover. -/
def engNoCap : Engine := ⟨[heatCap], [mixStep], ["S1"], []⟩

/-- Fixture: the model `build_constraints` yields for `engNoCap`. -/
def mNoCap : BuildModel :=
  ⟨[("S1", [])],
   [("S1", [("R1::Heat", [Reason.semMismatch "Mixing" ["HeatingProcess"]])])],
   [], [Fml.falseF]⟩

/-- Fixture: engine with two eligible capabilities for its single step. -/
def engTwoCaps : Engine := ⟨[heatCap, heatCapB], [heatStep], ["S1"], []⟩

/-- Fixture: the model `build_constraints` yields for `engTwoCaps`. -/
def mTwoCaps : BuildModel :=
  ⟨[("S1", ["R1::Heat", "R2::Heat"])], [("S1", [])],
   [("S1", "R1::Heat"), ("S1", "R2::Heat")],
   [Fml.atLeastOne "S1" ["R1::Heat", "R2::Heat"],
    Fml.mutex "S1" "R1::Heat" "R2::Heat"]⟩

/-- Fixture: the assignment selecting `R1::Heat` for step `S1`. -/
def sigTwo : String → String → Bool := fun s c => s == "S1" && c == "R1::Heat"

/-- Fixture: engine whose step carries a malformed requirement reaching an
otherwise eligible capability. -/
def engBadReq : Engine := ⟨[heatCap], [badStep], ["S1"], []⟩

/-- Fixture: a cyclic semantic hierarchy (`a` generalized by `b` and `b`
generalized by `a`). -/
def cycHier : List (String × List String) := [("a", ["b"]), ("b", ["a"])]

/-- Fixture: a three-step pipeline with an interior hint-free dosing step
and capabilities on two resources. -/
def pipeEngine : Engine :=
  ⟨[⟨"R1::Heat", "Heat", "Heating", ["Heating"], []⟩,
    ⟨"R2::Heat", "Heat", "Heating", ["Heating"], []⟩,
    ⟨"R1::Dose", "Dose", "dosing", ["dosing"], []⟩,
    ⟨"R2::Dose", "Dose", "dosing", ["dosing"], []⟩],
   [⟨"A", "Heating", []⟩, ⟨"B", "dosing", []⟩, ⟨"C", "Heating", []⟩],
   ["A", "B", "C"], []⟩

/-- Fixture: the model `build_constraints` yields for `pipeEngine`. -/
def pipeModel : BuildModel :=
  ⟨[("A", ["R1::Heat", "R2::Heat"]), ("B", ["R1::Dose", "R2::Dose"]),
    ("C", ["R1::Heat", "R2::Heat"])],
   [("A", [("R1::Dose", [Reason.semMismatch "Heating" ["dosing"]]),
           ("R2::Dose", [Reason.semMismatch "Heating" ["dosing"]])]),
    ("B", [("R1::Heat", [Reason.semMismatch "dosing" ["Heating"]]),
           ("R2::Heat", [Reason.semMismatch "dosing" ["Heating"]])]),
    ("C", [("R1::Dose", [Reason.semMismatch "Heating" ["dosing"]]),
           ("R2::Dose", [Reason.semMismatch "Heating" ["dosing"]])])],
   [("A", "R1::Heat"), ("A", "R2::Heat"), ("B", "R1::Dose"), ("B", "R2::Dose"),
    ("C", "R1::Heat"), ("C", "R2::Heat")],
   [Fml.atLeastOne "A" ["R1::Heat", "R2::Heat"], Fml.mutex "A" "R1::Heat" "R2::Heat",
    Fml.atLeastOne "B" ["R1::Dose", "R2::Dose"], Fml.mutex "B" "R1::Dose" "R2::Dose",
    Fml.atLeastOne "C" ["R1::Heat", "R2::Heat"], Fml.mutex "C" "R1::Heat" "R2::Heat",
    Fml.implOr "B" "R1::Dose" "A" ["R2::Heat"], Fml.implOr "B" "R1::Dose" "C" ["R2::Heat"],
    Fml.implOr "B" "R2::Dose" "A" ["R1::Heat"], Fml.implOr "B" "R2::Dose" "C" ["R1::Heat"]]⟩

/-- Fixture: a satisfying assignment of `pipeModel` (dose on `R1`, heat on
`R2` on both sides). -/
def pipeSig : String → String → Bool := fun s c =>
  (s == "A" && c == "R2::Heat") || (s == "B" && c == "R1::Dose")
    || (s == "C" && c == "R2::Heat")

theorem exMapM_ok_get {α β : Type} {f : α → Except Unit β} :
    ∀ {l : List α} {l' : List β}, exMapM f l = .ok l' →
      l'.length = l.length ∧
      ∀ i a, l.get? i = some a → ∃ b, l'.get? i = some b ∧ f a = .ok b := by
  intro l
  induction l with
  | nil =>
    intro l' hl
    cases hl
    exact ⟨rfl, by intro i a ha; cases i <;> cases ha⟩
  | cons a as ih =>
    intro l' hl
    rw [exMapM] at hl
    cases hfa : f a with
    | error u => rw [hfa] at hl; cases hl
    | ok b =>
        rw [hfa] at hl
        cases hrest : exMapM f as with
        | error u => rw [hrest] at hl; cases hl
        | ok bs =>
            rw [hrest] at hl
            cases hl
            obtain ⟨ihlen, ihget⟩ := ih hrest
            refine ⟨by simp [ihlen], ?_⟩
            intro i x hx
            cases i with
            | zero =>
                cases hx
                exact ⟨b, rfl, hfa⟩
            | succ i =>
                exact ihget i x hx

theorem exMapM_ok_mem {α β : Type} {f : α → Except Unit β} {l : List α} {l' : List β}
    {a : α} (hl : exMapM f l = .ok l') (ha : a ∈ l) : ∃ b ∈ l', f a = .ok b := by
  obtain ⟨i, hi⟩ := List.get?_of_mem ha
  obtain ⟨b, hb1, hb2⟩ := (exMapM_ok_get hl).2 i a hi
  exact ⟨b, List.get?_mem hb1, hb2⟩

theorem exMapM_error_of_mem {α β : Type} {f : α → Except Unit β} :
    ∀ {l : List α} {a : α} {u : Unit}, a ∈ l → f a = .error u →
      ∃ u', exMapM f l = .error u' := by
  intro l
  induction l with
  | nil =>
    intro a u ha
    cases ha
  | cons x xs ih =>
    intro a u ha hfa
    rw [exMapM]
    cases hfx : f x with
    | error v => exact ⟨v, rfl⟩
    | ok b =>
        rcases List.mem_cons.1 ha with rfl | ha
        · rw [hfa] at hfx; cases hfx
        · obtain ⟨u', hu'⟩ := ih ha hfa
          rw [hu']
          exact ⟨u', rfl⟩

theorem pairsAfter_mem {α : Type} {a b : α} :
    ∀ {l : List α}, a ∈ l → b ∈ l → a ≠ b →
      (a, b) ∈ pairsAfter l ∨ (b, a) ∈ pairsAfter l := by
  intro l
  induction l with
  | nil =>
    intro ha
    cases ha
  | cons x xs ih =>
    intro ha hb hne
    rcases List.mem_cons.1 ha with ha' | ha'
    · rcases List.mem_cons.1 hb with hb' | hb'
      · exact absurd (ha'.trans hb'.symm) hne
      · left
        rw [ha']
        exact List.mem_append.2 (Or.inl (List.mem_map_of_mem _ hb'))
    · rcases List.mem_cons.1 hb with hb' | hb'
      · right
        rw [hb']
        exact List.mem_append.2 (Or.inl (List.mem_map_of_mem _ ha'))
      · rcases ih ha' hb' hne with hp | hp
        · left
          exact List.mem_append.2 (Or.inr hp)
        · right
          exact List.mem_append.2 (Or.inr hp)

theorem stepBase_mutex_mem {sid : String} {valid : List String} {c1 c2 : String}
    (h1 : c1 ∈ valid) (h2 : c2 ∈ valid) (hne : c1 ≠ c2) :
    Fml.mutex sid c1 c2 ∈ stepBaseConstraints sid valid ∨
    Fml.mutex sid c2 c1 ∈ stepBaseConstraints sid valid := by
  cases valid with
  | nil => cases h1
  | cons v vs =>
      rcases pairsAfter_mem h1 h2 hne with hp | hp
      · left
        exact List.mem_cons_of_mem _ (List.mem_map_of_mem _ hp)
      · right
        exact List.mem_cons_of_mem _ (List.mem_map_of_mem _ hp)

theorem stepBase_atLeastOne_mem {sid : String} {valid : List String}
    (hne : valid ≠ []) : Fml.atLeastOne sid valid ∈ stepBaseConstraints sid valid := by
  cases valid with
  | nil => exact absurd rfl hne
  | cons v vs => exact List.mem_cons_self _ _

theorem stepElig_ok {cap_list : List Cap} {st : Step}
    {y : String × List String × List (String × List Reason)}
    (h : stepElig cap_list st = .ok y) :
    y.1 = st.ID ∧ eligibleForStep cap_list st = .ok (y.2.1, y.2.2) := by
  unfold stepElig at h
  cases he : eligibleForStep cap_list st with
  | error u => rw [he] at h; cases h
  | ok r =>
      rw [he] at h
      cases h
      exact ⟨rfl, rfl⟩

theorem buildConstraints_ok {e : Engine} {m : BuildModel}
    (hb : buildConstraints e = .ok m) :
    ∃ elig tr,
      exMapM (stepElig e.cap_list) e.steps = .ok elig ∧
      transportConstraints e.step_ids
        (elig.foldl (fun d x => dictInsert d x.1 x.2.1) [])
        (computeModes e.step_ids e.assigned_resources e.steps 0) = .ok tr ∧
      m.valid_mapping = elig.foldl (fun d x => dictInsert d x.1 x.2.1) [] ∧
      m.constraints = (elig.map (fun x => stepBaseConstraints x.1 x.2.1)).join ++ tr := by
  unfold buildConstraints at hb
  split at hb
  next u heq => cases hb
  next elig heq =>
    split at hb
    next u heq2 => cases hb
    next tr heq2 =>
      cases hb
      exact ⟨elig, tr, heq, heq2, rfl, rfl⟩

theorem baseConstraint_mem {elig : List (String × List String × List (String × List Reason))}
    {x : String × List String × List (String × List Reason)} {f : Fml}
    (hx : x ∈ elig) (hf : f ∈ stepBaseConstraints x.1 x.2.1) :
    f ∈ (elig.map (fun y => stepBaseConstraints y.1 y.2.1)).join := by
  rw [List.mem_join]
  exact ⟨stepBaseConstraints x.1 x.2.1, List.mem_map_of_mem _ hx, hf⟩

/-- Under a satisfying assignment of a constraint list containing a step's
base constraints, at most one variable value of that step is true. -/
theorem unique_true_of_sat {fs : List Fml} {sid : String} {valid : List String}
    {σ : String → String → Bool} {c1 c2 : String}
    (hsub : ∀ f ∈ stepBaseConstraints sid valid, f ∈ fs)
    (hσ : satAssign σ fs) (h1 : c1 ∈ valid) (h2 : c2 ∈ valid)
    (ht1 : σ sid c1 = true) (ht2 : σ sid c2 = true) : c1 = c2 := by
  by_contra hne
  rcases @stepBase_mutex_mem sid valid c1 c2 h1 h2 hne with hm | hm
  all_goals
    have heval := satAssign_mem hσ (hsub _ hm)
    rw [evalC] at heval
    simp [ht1, ht2] at heval

/-- Under a satisfying assignment of a constraint list containing a step's
base constraints, the step's valid set is nonempty and some variable of it
is true. -/
theorem exists_true_of_sat {fs : List Fml} {sid : String} {valid : List String}
    {σ : String → String → Bool}
    (hsub : ∀ f ∈ stepBaseConstraints sid valid, f ∈ fs)
    (hσ : satAssign σ fs) : ∃ c ∈ valid, σ sid c = true := by
  cases hv : valid with
  | nil =>
      subst hv
      have heval := satAssign_mem hσ (hsub Fml.falseF (by rw [stepBaseConstraints]; exact List.mem_singleton.2 rfl))
      rw [evalC] at heval
      cases heval
  | cons v vs =>
      subst hv
      have heval := satAssign_mem hσ (hsub _ (stepBase_atLeastOne_mem (by intro h; cases h)))
      rw [evalC] at heval
      obtain ⟨c, hc1, hc2⟩ := List.any_eq_true.1 heval
      exact ⟨c, hc1, hc2⟩

theorem digit_not_ws {c : Char} (hd : c.isDigit = true) : c.isWhitespace = false := by
  by_contra hw
  rw [Bool.not_eq_false] at hw
  simp only [Char.isWhitespace] at hw
  rcases Bool.or_eq_true_iff.1 hw with hw | h4
  · rcases Bool.or_eq_true_iff.1 hw with hw | h3
    · rcases Bool.or_eq_true_iff.1 hw with h1 | h2
      · rw [decide_eq_true_iff] at h1; subst h1; exact absurd hd (by decide)
      · rw [decide_eq_true_iff] at h2; subst h2; exact absurd hd (by decide)
    · rw [decide_eq_true_iff] at h3; subst h3; exact absurd hd (by decide)
  · rw [decide_eq_true_iff] at h4; subst h4; exact absurd hd (by decide)

theorem digit_ne_dash {c : Char} (hd : c.isDigit = true) : (c == '-') = false := by
  by_contra hb
  rw [Bool.not_eq_false, beq_iff_eq] at hb
  subst hb
  exact absurd hd (by decide)

theorem dropWhile_ws_eq_self {l : List Char}
    (hl : ∀ c ∈ l, c.isWhitespace = false) :
    l.dropWhile Char.isWhitespace = l := by
  cases l with
  | nil => rfl
  | cons c cs =>
      rw [List.dropWhile_cons, hl c (List.mem_cons_self _ _)]
      simp

theorem trimChars_eq_self {l : List Char}
    (hl : ∀ c ∈ l, c.isWhitespace = false) : trimChars l = l := by
  unfold trimChars
  rw [dropWhile_ws_eq_self hl, dropWhile_ws_eq_self, List.reverse_reverse]
  intro c hc
  exact hl c (List.mem_reverse.1 hc)

theorem splitOnChar_no_sep {sep : Char} {l : List Char}
    (hl : ∀ c ∈ l, (c == sep) = false) : splitOnChar sep l = [l] := by
  induction l with
  | nil => rfl
  | cons c cs ih =>
      rw [splitOnChar, hl c (List.mem_cons_self _ _)]
      simp only [Bool.false_eq_true, if_false]
      rw [ih (fun x hx => hl x (List.mem_cons_of_mem _ hx))]

theorem splitOnChar_ne_nil (sep : Char) (l : List Char) : splitOnChar sep l ≠ [] := by
  cases l with
  | nil => simp [splitOnChar]
  | cons c cs =>
      rw [splitOnChar]
      split
      · exact List.cons_ne_nil _ _
      · cases hm : splitOnChar sep cs with
        | nil => simp
        | cons g gs => simp

theorem dropWhile_concat_stop {p : Char → Bool} {a : Char} (h : p a = false)
    (xs : List Char) : ∃ w, List.dropWhile p (xs ++ [a]) = w ++ [a] := by
  induction xs with
  | nil =>
      refine ⟨[], ?_⟩
      rw [List.nil_append, List.dropWhile_cons, h]
      simp
  | cons x xs ih =>
      rw [List.cons_append, List.dropWhile_cons]
      by_cases hx : p x = true
      · rw [hx]
        simpa using ih
      · rw [Bool.not_eq_true] at hx
        rw [hx]
        exact ⟨x :: xs, by simp⟩

theorem trimChars_head_keep {a : Char} (h : a.isWhitespace = false)
    (cs : List Char) : ∃ t, trimChars (a :: cs) = a :: t := by
  have h1 : List.dropWhile Char.isWhitespace (a :: cs) = a :: cs := by
    rw [List.dropWhile_cons, h]
    simp
  obtain ⟨w, hw⟩ := dropWhile_concat_stop h cs.reverse
  refine ⟨w.reverse, ?_⟩
  unfold trimChars
  rw [h1, List.reverse_cons, hw, List.reverse_append]
  rfl

theorem buildProps_single_keep (p : RawProp) (pid : String) (lo hi : Option ℚ)
    (hpid : p.property_ID = some pid) (hne : pid ≠ "")
    (hlo : optFloat (pyOr p.valueMin p.value0) = some lo)
    (hhi : optFloat (pyOr p.valueMax p.value1) = some hi) :
    buildProps [p] = [(pid, (lo, hi))] := by
  unfold buildProps propBounds
  rw [List.foldl_cons, List.foldl_nil, hlo, hhi]
  dsimp only
  rw [hpid]
  dsimp only
  rw [if_pos hne]
  rfl

theorem buildProps_single_drop (p : RawProp)
    (h : optFloat (pyOr p.valueMin p.value0) = none ∨
         optFloat (pyOr p.valueMax p.value1) = none) :
    buildProps [p] = [] := by
  unfold buildProps propBounds
  rw [List.foldl_cons, List.foldl_nil]
  rcases h with h | h
  · rw [h]
  · rw [h]
    cases optFloat (pyOr p.valueMin p.value0) <;> rfl

theorem stepElig_error {cap_list : List Cap} {st : Step} {u : Unit}
    (h : eligibleForStep cap_list st = .error u) : stepElig cap_list st = .error u := by
  unfold stepElig
  rw [h]

theorem buildConstraints_error_of_exMapM {e : Engine} {u : Unit}
    (h : exMapM (stepElig e.cap_list) e.steps = .error u) :
    buildConstraints e = .error u := by
  unfold buildConstraints
  rw [h]

theorem flowRule_nil (sids : List String) (sid : String) (j : Nat) :
    flowRule sids [] sid j = "transfer" := by
  unfold flowRule
  simp [dictGetD, dictGet, resOf, splitOnColons]

/-- With no assigned resources, an interior transport-typed step with no
deciding explicit mode, identifier hint or parameter hint resolves to the
default `transfer`. -/
theorem determine_fresh_transfer (sids : List String) (st : Step) (j : Nat)
    (hj0 : j ≠ 0) (hjl : j ≠ sids.length - 1)
    (htype : TRANSPORT_TYPES.contains (lastHashLower st.SemanticDescription) = true)
    (hmode : ∀ p, st.Parameters.find? (fun q => pyLower q.Key = "mode") = some p →
        TRANSPORT_MODES.contains (pyTrim (pyLower p.ValueString)) = false)
    (hid : idHintMode (pyLower st.ID) = none)
    (hparam : paramHintMode st.Parameters = none) :
    determineTransportMode sids [] st j = some "transfer" := by
  have hhints : transportModeHints sids [] st.ID st.Parameters j = "transfer" := by
    unfold transportModeHints
    rw [hid, hparam]
    exact flowRule_nil sids st.ID j
  unfold determineTransportMode
  rw [if_neg (not_or.2 ⟨hj0, hjl⟩), if_neg (by rw [htype]; exact fun hc => by cases hc)]
  cases hf : st.Parameters.find? (fun q => pyLower q.Key = "mode") with
  | none =>
      dsimp only
      rw [hhints]
  | some p =>
      dsimp only
      rw [hmode p hf]
      simp only [Bool.false_eq_true, if_false]
      rw [hhints]

/-- The fall-through chain only differs through its final flow rule, so
equal flow-rule values give equal hint results. -/
theorem hints_congr (sids : List String) (A : List (String × String)) (sid : String)
    (params : List Param) (j : Nat)
    (hflow : idHintMode (pyLower sid) = none → paramHintMode params = none →
        flowRule sids A sid j = flowRule sids [] sid j) :
    transportModeHints sids A sid params j = transportModeHints sids [] sid params j := by
  unfold transportModeHints
  cases hid : idHintMode (pyLower sid) with
  | some m => rfl
  | none =>
      cases hp : paramHintMode params with
      | some m => rfl
      | none => exact hflow hid hp

/-- `determine_transport_mode` only consults the assigned resources in the
flow rule, reached for interior transport-typed steps whose explicit mode,
identifier and parameter hints all fail. -/
theorem determine_congr (sids : List String) (A : List (String × String)) (st : Step)
    (j : Nat)
    (hflow : ¬(j = 0 ∨ j = sids.length - 1) →
        TRANSPORT_TYPES.contains (lastHashLower st.SemanticDescription) = true →
        (∀ p, st.Parameters.find? (fun q => pyLower q.Key = "mode") = some p →
            TRANSPORT_MODES.contains (pyTrim (pyLower p.ValueString)) = false) →
        idHintMode (pyLower st.ID) = none → paramHintMode st.Parameters = none →
        flowRule sids A st.ID j = flowRule sids [] st.ID j) :
    determineTransportMode sids A st j = determineTransportMode sids [] st j := by
  unfold determineTransportMode
  split_ifs with h1 h2
  · rfl
  · rfl
  · have htype : TRANSPORT_TYPES.contains (lastHashLower st.SemanticDescription) = true := by
      rw [Bool.not_eq_false] at h2
      exact h2
    cases hf : st.Parameters.find? (fun q => pyLower q.Key = "mode") with
    | none =>
        dsimp only
        rw [hints_congr sids A st.ID st.Parameters j
          (hflow h1 htype (fun p hp => by rw [hf] at hp; cases hp))]
    | some p =>
        dsimp only
        split_ifs with h3
        · rfl
        · rw [Bool.not_eq_true] at h3
          rw [hints_congr sids A st.ID st.Parameters j
            (hflow h1 htype (fun q hq => by
              rw [hf] at hq
              injection hq with hq
              rw [← hq]
              exact h3))]

/-- `build_constraints` reads the engine only through the capability list,
the steps, the step ids and the computed transport modes. -/
theorem buildConstraints_congr_modes (e e' : Engine)
    (hcap : e'.cap_list = e.cap_list) (hsteps : e'.steps = e.steps)
    (hsids : e'.step_ids = e.step_ids)
    (hmodes : computeModes e'.step_ids e'.assigned_resources e'.steps 0
      = computeModes e.step_ids e.assigned_resources e.steps 0) :
    buildConstraints e' = buildConstraints e := by
  unfold buildConstraints
  rw [hmodes, hcap, hsteps, hsids]

theorem dictGet_gen {α : Type} (k : String) :
    ∀ (d : List (String × α)) (acc : Option α),
      d.foldl (fun a kv => if kv.1 = k then some kv.2 else a) acc
        = match d.foldl (fun a kv => if kv.1 = k then some kv.2 else a) none with
          | some v => some v
          | none => acc := by
  intro d
  induction d with
  | nil =>
    intro acc
    rfl
  | cons kv d ih =>
    intro acc
    rw [List.foldl_cons, List.foldl_cons, ih, ih (if kv.1 = k then some kv.2 else none)]
    cases hF : d.foldl (fun a kv => if kv.1 = k then some kv.2 else a) none with
    | some v => rfl
    | none => by_cases hP : kv.1 = k <;> simp [hP]

theorem dictGet_cons {α : Type} (kv : String × α) (d : List (String × α)) (k : String) :
    dictGet (kv :: d) k
      = match dictGet d k with
        | some v => some v
        | none => if kv.1 = k then some kv.2 else none := by
  unfold dictGet
  rw [List.foldl_cons]
  exact dictGet_gen k d _

theorem dictGet_append {α : Type} (d1 d2 : List (String × α)) (k : String) :
    dictGet (d1 ++ d2) k
      = match dictGet d2 k with
        | some v => some v
        | none => dictGet d1 k := by
  unfold dictGet
  rw [List.foldl_append]
  exact dictGet_gen k d2 _

theorem dictGet_none_of_not_any {α : Type} {d : List (String × α)} {k : String}
    (h : d.any (fun kv => kv.1 = k) = false) : dictGet d k = none := by
  induction d with
  | nil => rfl
  | cons kv d ih =>
      rw [List.any_cons, Bool.or_eq_false_iff] at h
      rw [dictGet_cons, ih h.2]
      simp only [decide_eq_false_iff_not] at h
      rw [if_neg h.1]

theorem replKey_eq {α : Type} (k : String) (v : α) (kv : String × α) :
    (if kv.1 = k then (k, v) else kv).1 = kv.1 := by
  by_cases h : kv.1 = k <;> simp [h]

theorem dictGet_map_repl_self {α : Type} (k : String) (v : α) :
    ∀ {d : List (String × α)}, d.any (fun kv => kv.1 = k) = true →
      dictGet (d.map (fun kv => if kv.1 = k then (k, v) else kv)) k = some v := by
  intro d
  induction d with
  | nil =>
    intro h
    cases h
  | cons kv d ih =>
    intro h
    rw [List.map_cons, dictGet_cons]
    by_cases hd : d.any (fun kv => kv.1 = k) = true
    · rw [ih hd]
    · rw [Bool.not_eq_true] at hd
      have hkey : (d.map (fun kv => if kv.1 = k then (k, v) else kv)).any
          (fun kv => kv.1 = k) = false := by
        rw [List.any_map]
        have : ((fun kv : String × α => decide (kv.1 = k)) ∘
            (fun kv => if kv.1 = k then (k, v) else kv)) = fun kv => decide (kv.1 = k) := by
          funext kv
          simp only [Function.comp_apply, replKey_eq]
        rw [this]
        exact hd
      rw [dictGet_none_of_not_any hkey]
      rw [List.any_cons, hd, Bool.or_false, decide_eq_true_iff] at h
      simp [h]

theorem dictGet_map_repl_other {α : Type} (k k' : String) (v : α) (hkk : k' ≠ k) :
    ∀ (d : List (String × α)),
      dictGet (d.map (fun kv => if kv.1 = k then (k, v) else kv)) k' = dictGet d k' := by
  intro d
  induction d with
  | nil => rfl
  | cons kv d ih =>
      rw [List.map_cons, dictGet_cons, dictGet_cons, ih]
      cases dictGet d k' with
      | some w => rfl
      | none =>
          dsimp only
          rw [replKey_eq]
          by_cases hP : kv.1 = k'
          · rw [if_pos hP, if_pos hP]
            have hQ : ¬ kv.1 = k := fun hQ => hkk (hP.symm.trans hQ)
            rw [if_neg hQ]
          · rw [if_neg hP, if_neg hP]

theorem dictGet_insert_self {α : Type} (d : List (String × α)) (k : String) (v : α) :
    dictGet (dictInsert d k v) k = some v := by
  unfold dictInsert
  split_ifs with h
  · exact dictGet_map_repl_self k v h
  · rw [dictGet_append]
    have : dictGet [(k, v)] k = some v := by
      unfold dictGet
      simp
    rw [this]

theorem dictGet_insert_other {α : Type} (d : List (String × α)) (k k' : String) (v : α)
    (h : k' ≠ k) : dictGet (dictInsert d k v) k' = dictGet d k' := by
  unfold dictInsert
  split_ifs with hA
  · exact dictGet_map_repl_other k k' v h d
  · rw [dictGet_append]
    have h1 : dictGet [(k, v)] k' = none := by
      unfold dictGet
      simp only [List.foldl_cons, List.foldl_nil]
      rw [if_neg (fun hc => h hc.symm)]
    rw [h1]

theorem dictGet_foldl_insert_ne {β γ : Type} (key : γ → String) (val : γ → β) (k : String) :
    ∀ (l : List γ) (d : List (String × β)), (∀ y ∈ l, key y ≠ k) →
      dictGet (l.foldl (fun acc x => dictInsert acc (key x) (val x)) d) k = dictGet d k := by
  intro l
  induction l with
  | nil =>
    intro d _
    rfl
  | cons y l ih =>
    intro d hne
    rw [List.foldl_cons, ih _ (fun z hz => hne z (List.mem_cons_of_mem _ hz)),
      dictGet_insert_other _ _ _ _ (fun hc => hne y (List.mem_cons_self _ _) hc.symm)]

theorem dictGet_foldl_insert_nodup {β γ : Type} (key : γ → String) (val : γ → β) :
    ∀ (l : List γ) (d : List (String × β)) (x : γ), x ∈ l → (l.map key).Nodup →
      dictGet (l.foldl (fun acc y => dictInsert acc (key y) (val y)) d) (key x)
        = some (val x) := by
  intro l
  induction l with
  | nil =>
    intro d x hx
    cases hx
  | cons y l ih =>
    intro d x hx hnd
    rw [List.map_cons, List.nodup_cons] at hnd
    rcases List.mem_cons.1 hx with rfl | hx
    · rw [List.foldl_cons,
        dictGet_foldl_insert_ne key val (key x) l _
          (fun z hz hc => hnd.1 (hc ▸ List.mem_map_of_mem key hz)),
        dictGet_insert_self]
    · rw [List.foldl_cons]
      exact ih _ x hx hnd.2

theorem dictGet_extract_ne (σ : String → String → Bool) (vm : List (String × List String))
    (k : String) :
    ∀ (l : List String) (acc : List (String × String)), (∀ y ∈ l, y ≠ k) →
      dictGet (l.foldl
        (fun acc sid =>
          match (dictGetD vm sid []).find? (fun c => σ sid c) with
          | some c => dictInsert acc sid c
          | none => acc) acc) k = dictGet acc k := by
  intro l
  induction l with
  | nil =>
    intro acc _
    rfl
  | cons y l ih =>
    intro acc hne
    rw [List.foldl_cons, ih _ (fun z hz => hne z (List.mem_cons_of_mem _ hz))]
    cases (dictGetD vm y []).find? (fun c => σ y c) with
    | some c =>
        exact dictGet_insert_other _ _ _ _ (fun hc => hne y (List.mem_cons_self _ _) hc.symm)
    | none => rfl

theorem dictGet_extract_nodup (σ : String → String → Bool) (vm : List (String × List String)) :
    ∀ (l : List String) (acc : List (String × String)) (k : String), k ∈ l → l.Nodup →
      dictGet (l.foldl
        (fun acc sid =>
          match (dictGetD vm sid []).find? (fun c => σ sid c) with
          | some c => dictInsert acc sid c
          | none => acc) acc) k
        = match (dictGetD vm k []).find? (fun c => σ k c) with
          | some c => some c
          | none => dictGet acc k := by
  intro l
  induction l with
  | nil =>
    intro acc k hk
    cases hk
  | cons y l ih =>
    intro acc k hk hnd
    rw [List.nodup_cons] at hnd
    rcases List.mem_cons.1 hk with rfl | hk
    · rw [List.foldl_cons,
        dictGet_extract_ne σ vm k l _ (fun z hz hc => hnd.1 (hc ▸ hz))]
      cases (dictGetD vm k []).find? (fun c => σ k c) with
      | some c => exact dictGet_insert_self _ _ _
      | none => rfl
    · rw [List.foldl_cons]
      have hyk : ¬ k = y := fun hc => hnd.1 (hc ▸ hk)
      rw [ih _ k hk hnd.2]
      cases (dictGetD vm k []).find? (fun c => σ k c) with
      | some c => rfl
      | none =>
          dsimp only
          cases (dictGetD vm y []).find? (fun c => σ y c) with
          | some c => exact dictGet_insert_other _ _ _ _ hyk
          | none => rfl

theorem listIndexOf_of_get? :
    ∀ (l : List String) (i : Nat) (x : String), l.get? i = some x → l.Nodup →
      listIndexOf l x = some i := by
  intro l
  induction l with
  | nil =>
    intro i x hx
    cases i <;> cases hx
  | cons a as ih =>
    intro i x hx hnd
    rw [List.nodup_cons] at hnd
    cases i with
    | zero =>
        cases hx
        rw [listIndexOf, if_pos rfl]
    | succ i =>
        have hxas : x ∈ as := List.get?_mem hx
        have hax : ¬ a = x := fun hc => hnd.1 (hc ▸ hxas)
        rw [listIndexOf, if_neg hax, ih i x hx hnd.2]
        rfl

theorem computeModes_get? (sids : List String) (assigned : List (String × String)) :
    ∀ (l : List Step) (j0 i : Nat),
      (computeModes sids assigned l j0).get? i
        = (l.get? i).map (fun st =>
            (st, if 0 < j0 + i ∧ j0 + i < sids.length - 1 then
                   determineTransportMode sids assigned st (j0 + i)
                 else none)) := by
  intro l
  induction l with
  | nil =>
    intro j0 i
    cases i <;> rfl
  | cons st l ih =>
    intro j0 i
    cases i with
    | zero =>
        rw [computeModes]
        simp
    | succ i =>
        rw [computeModes]
        show (computeModes sids assigned l (j0 + 1)).get? i = _
        rw [ih (j0 + 1) i]
        have harith : j0 + 1 + i = j0 + (i + 1) := by omega
        rw [harith]
        rfl

theorem transportConstraints_ok {sids : List String} {vm : List (String × List String)}
    {modes : List (Step × Option String)} {tr : List Fml}
    (h : transportConstraints sids vm modes = .ok tr) :
    ∃ ls, exMapM (transportStepConstraints sids vm) modes = .ok ls ∧ tr = ls.join := by
  unfold transportConstraints at h
  cases hE : exMapM (transportStepConstraints sids vm) modes with
  | error u => rw [hE] at h; cases h
  | ok ls =>
      rw [hE] at h
      injection h with h
      exact ⟨ls, rfl, h.symm⟩

theorem transportStep_transfer {sids : List String} {vm : List (String × List String)}
    {st : Step}
    (htype : TRANSPORT_TYPES.contains (lastHashLower st.SemanticDescription) = true) :
    transportStepConstraints sids vm (st, some "transfer")
      = handleTransferMode vm st.ID sids := by
  unfold transportStepConstraints
  rw [htype]
  rfl

theorem elig_map_fst {e : Engine}
    {elig : List (String × List String × List (String × List Reason))}
    (hE : exMapM (stepElig e.cap_list) e.steps = .ok elig) :
    elig.map (fun y => y.1) = e.steps.map Step.ID := by
  obtain ⟨hlen, hget⟩ := exMapM_ok_get hE
  apply List.ext
  intro n
  rw [List.get?_map, List.get?_map]
  cases hsn : e.steps.get? n with
  | none =>
      have hn : e.steps.length ≤ n := List.get?_eq_none.1 hsn
      have : elig.get? n = none := List.get?_eq_none.2 (by rw [hlen]; exact hn)
      rw [this]
      rfl
  | some st =>
      obtain ⟨y, hy1, hy2⟩ := hget n st hsn
      rw [hy1]
      obtain ⟨hid, _⟩ := stepElig_ok hy2
      simp only [Option.map_some']
      rw [hid]

theorem handleTransfer_mem {vm : List (String × List String)} {sid : String}
    {sids : List String} {j : Nat} {L : List Fml}
    (hpi : pyIndex sids sid = .ok j) (hj0 : 0 < j) (hjl : j < sids.length - 1)
    (hok : handleTransferMode vm sid sids = .ok L) :
    ∀ c ∈ dictGetD vm sid [],
      transferSideFml vm sid (sids.getD (j - 1) "") c ∈ L ∧
      transferSideFml vm sid (sids.getD (j + 1) "") c ∈ L := by
  unfold handleTransferMode at hok
  rw [hpi] at hok
  dsimp only at hok
  rw [if_pos hj0, if_pos hjl] at hok
  injection hok with hok
  intro c hc
  constructor
  · rw [← hok, List.mem_join]
    refine ⟨_, List.mem_map_of_mem _ hc, ?_⟩
    exact List.mem_append.2 (Or.inl (List.mem_singleton.2 rfl))
  · rw [← hok, List.mem_join]
    refine ⟨_, List.mem_map_of_mem _ hc, ?_⟩
    exact List.mem_append.2 (Or.inr (List.mem_singleton.2 rfl))

theorem transferSide_forces {vm : List (String × List String)} {sid tgt c : String}
    {fs : List Fml} {σ : String → String → Bool}
    (hmem : transferSideFml vm sid tgt c ∈ fs) (hσ : satAssign σ fs)
    (hc : σ sid c = true) :
    ∃ pc, pc ∈ dictGetD vm tgt [] ∧ resOf pc ≠ resOf c ∧ σ tgt pc = true := by
  unfold transferSideFml at hmem
  by_cases hemp : ((dictGetD vm tgt []).filter (fun pc => resOf pc ≠ resOf c)).isEmpty = false
  · rw [if_pos hemp] at hmem
    have heval := satAssign_mem hσ hmem
    rw [evalC] at heval
    rcases Bool.or_eq_true_iff.1 heval with hfalse | hany
    · rw [hc] at hfalse
      cases hfalse
    · obtain ⟨pc, hpcmem, hpctrue⟩ := List.any_eq_true.1 hany
      obtain ⟨hpc1, hpc2⟩ := List.mem_filter.1 hpcmem
      rw [decide_eq_true_iff] at hpc2
      exact ⟨pc, hpc1, hpc2, hpctrue⟩
  · rw [if_neg hemp] at hmem
    have heval := satAssign_mem hσ hmem
    rw [evalC, hc] at heval
    cases heval

/-- After a satisfying solve, the transfer constraints of a hint-free
interior transport step force the extracted previous and next resources to
differ from its own, so the material-flow rule still resolves to
`transfer` on the next build. -/
theorem flowRule_after_solve
    {e : Engine} {m : BuildModel}
    {elig : List (String × List String × List (String × List Reason))}
    {tr : List Fml} {σ : String → String → Bool} {st : Step} {j : Nat}
    (hids : e.step_ids = e.steps.map Step.ID)
    (hnd : e.step_ids.Nodup)
    (hE : exMapM (stepElig e.cap_list) e.steps = .ok elig)
    (hT : transportConstraints e.step_ids m.valid_mapping
        (computeModes e.step_ids [] e.steps 0) = .ok tr)
    (hvm : m.valid_mapping = elig.foldl (fun d x => dictInsert d x.1 x.2.1) [])
    (hcs : m.constraints = (elig.map (fun x => stepBaseConstraints x.1 x.2.1)).join ++ tr)
    (hσ : satAssign σ m.constraints)
    (hst : e.steps.get? j = some st)
    (hj0 : 0 < j) (hjl : j < e.step_ids.length - 1)
    (htype : TRANSPORT_TYPES.contains (lastHashLower st.SemanticDescription) = true)
    (hmode : ∀ p, st.Parameters.find? (fun q => pyLower q.Key = "mode") = some p →
        TRANSPORT_MODES.contains (pyTrim (pyLower p.ValueString)) = false)
    (hid : idHintMode (pyLower st.ID) = none)
    (hparam : paramHintMode st.Parameters = none) :
    flowRule e.step_ids (extractAssigned σ e.step_ids m.valid_mapping) st.ID j
      = "transfer" := by
  have hlen : e.step_ids.length = e.steps.length := by
    rw [hids]
    exact List.length_map _ _
  obtain ⟨hjlt, -⟩ := List.get?_eq_some.1 hst
  have hsidj : e.step_ids.get? j = some st.ID := by
    rw [hids, List.get?_map, hst]
    rfl
  have hstpE : ∃ stp, e.steps.get? (j - 1) = some stp := by
    cases h : e.steps.get? (j - 1) with
    | none => exact absurd (List.get?_eq_none.1 h) (by omega)
    | some stp => exact ⟨stp, rfl⟩
  obtain ⟨stp, hstp⟩ := hstpE
  have hstnE : ∃ stn, e.steps.get? (j + 1) = some stn := by
    cases h : e.steps.get? (j + 1) with
    | none => exact absurd (List.get?_eq_none.1 h) (by omega)
    | some stn => exact ⟨stn, rfl⟩
  obtain ⟨stn, hstn⟩ := hstnE
  have hsidp : e.step_ids.get? (j - 1) = some stp.ID := by
    rw [hids, List.get?_map, hstp]
    rfl
  have hsidn : e.step_ids.get? (j + 1) = some stn.ID := by
    rw [hids, List.get?_map, hstn]
    rfl
  have hgetDp : e.step_ids.getD (j - 1) "" = stp.ID := by
    rw [List.getD_eq_get?, hsidp]
    rfl
  have hgetDn : e.step_ids.getD (j + 1) "" = stn.ID := by
    rw [List.getD_eq_get?, hsidn]
    rfl
  obtain ⟨hElen, hEget⟩ := exMapM_ok_get hE
  obtain ⟨y, hyget, hyok⟩ := hEget j st hst
  obtain ⟨hy1, -⟩ := stepElig_ok hyok
  obtain ⟨yp, hypget, hypok⟩ := hEget (j - 1) stp hstp
  obtain ⟨hyp1, -⟩ := stepElig_ok hypok
  obtain ⟨yn, hynget, hynok⟩ := hEget (j + 1) stn hstn
  obtain ⟨hyn1, -⟩ := stepElig_ok hynok
  have hndk : (elig.map (fun y => y.1)).Nodup := by
    rw [elig_map_fst hE, ← hids]
    exact hnd
  have hvmj : dictGet m.valid_mapping st.ID = some y.2.1 := by
    rw [hvm, ← hy1]
    exact dictGet_foldl_insert_nodup _ _ elig [] y (List.get?_mem hyget) hndk
  have hvmp : dictGet m.valid_mapping stp.ID = some yp.2.1 := by
    rw [hvm, ← hyp1]
    exact dictGet_foldl_insert_nodup _ _ elig [] yp (List.get?_mem hypget) hndk
  have hvmn : dictGet m.valid_mapping stn.ID = some yn.2.1 := by
    rw [hvm, ← hyn1]
    exact dictGet_foldl_insert_nodup _ _ elig [] yn (List.get?_mem hynget) hndk
  have hvmDj : dictGetD m.valid_mapping st.ID [] = y.2.1 := by
    unfold dictGetD
    rw [hvmj]
    rfl
  have hvmDp : dictGetD m.valid_mapping stp.ID [] = yp.2.1 := by
    unfold dictGetD
    rw [hvmp]
    rfl
  have hvmDn : dictGetD m.valid_mapping stn.ID [] = yn.2.1 := by
    unfold dictGetD
    rw [hvmn]
    rfl
  have hsubj : ∀ f ∈ stepBaseConstraints st.ID y.2.1, f ∈ m.constraints := by
    intro f hf
    rw [hcs]
    refine List.mem_append.2 (Or.inl (baseConstraint_mem (List.get?_mem hyget) ?_))
    rw [hy1]
    exact hf
  have hsubp : ∀ f ∈ stepBaseConstraints stp.ID yp.2.1, f ∈ m.constraints := by
    intro f hf
    rw [hcs]
    refine List.mem_append.2 (Or.inl (baseConstraint_mem (List.get?_mem hypget) ?_))
    rw [hyp1]
    exact hf
  have hsubn : ∀ f ∈ stepBaseConstraints stn.ID yn.2.1, f ∈ m.constraints := by
    intro f hf
    rw [hcs]
    refine List.mem_append.2 (Or.inl (baseConstraint_mem (List.get?_mem hynget) ?_))
    rw [hyn1]
    exact hf
  obtain ⟨cw, hcwmem, hcwtrue⟩ := exists_true_of_sat hsubj hσ
  obtain ⟨cstar, hcstar⟩ :=
    Option.isSome_iff_exists.1 (List.find?_isSome.2 ⟨cw, hcwmem, hcwtrue⟩)
  have hcsmem : cstar ∈ y.2.1 := List.mem_of_find?_eq_some hcstar
  have hcstrue : σ st.ID cstar = true := List.find?_some hcstar
  have hcstarD : (dictGetD m.valid_mapping st.ID []).find? (fun c => σ st.ID c)
      = some cstar := by
    rw [hvmDj]
    exact hcstar
  have hpi : pyIndex e.step_ids st.ID = .ok j := by
    unfold pyIndex
    rw [listIndexOf_of_get? _ j _ hsidj hnd]
  have hmodesj : (computeModes e.step_ids [] e.steps 0).get? j
      = some (st, some "transfer") := by
    rw [computeModes_get?, hst, Option.map_some']
    rw [Nat.zero_add]
    rw [if_pos ⟨hj0, hjl⟩]
    rw [determine_fresh_transfer e.step_ids st j (by omega) (by omega) htype hmode hid hparam]
  obtain ⟨ls, hls, htreq⟩ := transportConstraints_ok hT
  obtain ⟨-, hlsget⟩ := exMapM_ok_get hls
  obtain ⟨L, hLget, hLok⟩ := hlsget j (st, some "transfer") hmodesj
  rw [transportStep_transfer htype] at hLok
  have hLsub : ∀ f ∈ L, f ∈ m.constraints := by
    intro f hf
    rw [hcs]
    refine List.mem_append.2 (Or.inr ?_)
    rw [htreq, List.mem_join]
    exact ⟨L, List.get?_mem hLget, hf⟩
  obtain ⟨hsideP, hsideN⟩ :=
    handleTransfer_mem hpi hj0 hjl hLok cstar (by rw [hvmDj]; exact hcsmem)
  rw [hgetDp] at hsideP
  rw [hgetDn] at hsideN
  obtain ⟨pc, hpcmem, hpcres, hpctrue⟩ := transferSide_forces (hLsub _ hsideP) hσ hcstrue
  obtain ⟨nc, hncmem, hncres, hnctrue⟩ := transferSide_forces (hLsub _ hsideN) hσ hcstrue
  rw [hvmDp] at hpcmem
  rw [hvmDn] at hncmem
  obtain ⟨pstar, hpstar⟩ :=
    Option.isSome_iff_exists.1 (List.find?_isSome.2 ⟨pc, hpcmem, hpctrue⟩)
  have hpsmem : pstar ∈ yp.2.1 := List.mem_of_find?_eq_some hpstar
  have hpstrue : σ stp.ID pstar = true := List.find?_some hpstar
  have hpstarD : (dictGetD m.valid_mapping stp.ID []).find? (fun c => σ stp.ID c)
      = some pstar := by
    rw [hvmDp]
    exact hpstar
  have hpeq : pstar = pc := unique_true_of_sat hsubp hσ hpsmem hpcmem hpstrue hpctrue
  obtain ⟨nstar, hnstar⟩ :=
    Option.isSome_iff_exists.1 (List.find?_isSome.2 ⟨nc, hncmem, hnctrue⟩)
  have hnsmem : nstar ∈ yn.2.1 := List.mem_of_find?_eq_some hnstar
  have hnstrue : σ stn.ID nstar = true := List.find?_some hnstar
  have hnstarD : (dictGetD m.valid_mapping stn.ID []).find? (fun c => σ stn.ID c)
      = some nstar := by
    rw [hvmDn]
    exact hnstar
  have hneq : nstar = nc := unique_true_of_sat hsubn hσ hnsmem hncmem hnstrue hnctrue
  have hprev_ne : resOf pstar ≠ resOf cstar := by
    rw [hpeq]
    exact hpcres
  have hnext_ne : resOf nstar ≠ resOf cstar := by
    rw [hneq]
    exact hncres
  have hA2j : dictGetD (extractAssigned σ e.step_ids m.valid_mapping) st.ID "" = cstar := by
    unfold dictGetD extractAssigned
    rw [dictGet_extract_nodup σ m.valid_mapping e.step_ids [] st.ID
      (List.get?_mem hsidj) hnd, hcstarD]
    rfl
  have hA2p : dictGetD (extractAssigned σ e.step_ids m.valid_mapping)
      (e.step_ids.getD (j - 1) "") "" = pstar := by
    rw [hgetDp]
    unfold dictGetD extractAssigned
    rw [dictGet_extract_nodup σ m.valid_mapping e.step_ids [] stp.ID
      (List.get?_mem hsidp) hnd, hpstarD]
    rfl
  have hA2n : dictGetD (extractAssigned σ e.step_ids m.valid_mapping)
      (e.step_ids.getD (j + 1) "") "" = nstar := by
    rw [hgetDn]
    unfold dictGetD extractAssigned
    rw [dictGet_extract_nodup σ m.valid_mapping e.step_ids [] stn.ID
      (List.get?_mem hsidn) hnd, hnstarD]
    rfl
  unfold flowRule
  rw [if_pos (⟨hj0, hjl⟩ : 0 < j ∧ j < e.step_ids.length - 1)]
  rw [hA2p, hA2n, hA2j]
  by_cases hg : resOf cstar ≠ "" ∧ resOf pstar ≠ "" ∧ resOf nstar ≠ ""
  · rw [if_pos hg, if_neg (fun hc => hnext_ne hc.2.symm),
      if_neg (fun hc => hprev_ne hc.1.symm),
      if_pos ⟨fun hc => hprev_ne hc.symm, fun hc => hnext_ne hc.symm⟩]
  · rw [if_neg hg]

/-- Recomputing the transport modes after a satisfying solve yields the
same modes as the fresh first pass. -/
theorem modes_after_solve_eq
    {e : Engine} {m : BuildModel}
    {elig : List (String × List String × List (String × List Reason))}
    {tr : List Fml} {σ : String → String → Bool}
    (hids : e.step_ids = e.steps.map Step.ID)
    (hnd : e.step_ids.Nodup)
    (hE : exMapM (stepElig e.cap_list) e.steps = .ok elig)
    (hT : transportConstraints e.step_ids m.valid_mapping
        (computeModes e.step_ids [] e.steps 0) = .ok tr)
    (hvm : m.valid_mapping = elig.foldl (fun d x => dictInsert d x.1 x.2.1) [])
    (hcs : m.constraints = (elig.map (fun x => stepBaseConstraints x.1 x.2.1)).join ++ tr)
    (hσ : satAssign σ m.constraints) :
    computeModes e.step_ids (extractAssigned σ e.step_ids m.valid_mapping) e.steps 0
      = computeModes e.step_ids [] e.steps 0 := by
  apply List.ext
  intro i
  rw [computeModes_get?, computeModes_get?]
  cases hst : e.steps.get? i with
  | none => rfl
  | some st =>
      rw [Option.map_some', Option.map_some']
      by_cases hguard : 0 < 0 + i ∧ 0 + i < e.step_ids.length - 1
      · rw [if_pos hguard, if_pos hguard, Nat.zero_add]
        rw [Nat.zero_add] at hguard
        refine congrArg (fun x => some (st, x)) (determine_congr _ _ _ _ ?_)
        intro _ htype hmode hid hparam
        rw [flowRule_after_solve hids hnd hE hT hvm hcs hσ hst hguard.1 hguard.2
          htype hmode hid hparam, flowRule_nil]
      · rw [if_neg hguard, if_neg hguard]

/-- C1: for every recipe step whose set of valid (eligible) capabilities is
empty, `build_constraints` adds the unconditional contradiction
`solver.add(False)` to the model, so the whole constraint model is
unsatisfiable and the solver reports UNSAT for the entire run, regardless
of how well the other steps are covered. -/
theorem empty_valid_step_forces_unsat (e : Engine) (m : BuildModel) (st : Step)
    (inv : List (String × List Reason))
    (hst : st ∈ e.steps)
    (helig : eligibleForStep e.cap_list st = .ok ([], inv))
    (hb : buildConstraints e = .ok m) :
    Fml.falseF ∈ m.constraints ∧ modelUNSAT m.constraints := by
  obtain ⟨elig, tr, hE, hT, hvm, hcs⟩ := buildConstraints_ok hb
  obtain ⟨y, hy, hys⟩ := exMapM_ok_mem hE hst
  obtain ⟨hid, he2⟩ := stepElig_ok hys
  have hinj : (([] : List String), inv) = (y.2.1, y.2.2) := by
    have h := helig.symm.trans he2
    injection h
  have hy21 : y.2.1 = [] := (congrArg Prod.fst hinj).symm
  have hfmem : Fml.falseF ∈ m.constraints := by
    rw [hcs]
    refine List.mem_append.2 (Or.inl (baseConstraint_mem hy ?_))
    rw [hy21]
    exact List.mem_singleton.2 rfl
  refine ⟨hfmem, ?_⟩
  intro σ hσ
  have heval := satAssign_mem hσ hfmem
  rw [evalC] at heval
  cases heval

theorem empty_valid_step_forces_unsat_witness :
    Fml.falseF ∈ mNoCap.constraints ∧ modelUNSAT mNoCap.constraints :=
  empty_valid_step_forces_unsat engNoCap mNoCap mixStep
    [("R1::Heat", [Reason.semMismatch "Mixing" ["HeatingProcess"]])]
    (by decide) (by decide) (by decide)

/-- C2: for every satisfying assignment of the constraint model built by
`build_constraints`, and for every step, at most one of that step's
selection variables is true: the pairwise mutual-exclusion constraints
forbid any two distinct valid capabilities of one step from being selected
together. -/
theorem at_most_one_selection_per_step (e : Engine) (m : BuildModel) (st : Step)
    (valid : List String) (inv : List (String × List Reason)) (c1 c2 : String)
    (σ : String → String → Bool)
    (hst : st ∈ e.steps)
    (helig : eligibleForStep e.cap_list st = .ok (valid, inv))
    (hb : buildConstraints e = .ok m)
    (hσ : satAssign σ m.constraints)
    (h1 : c1 ∈ valid) (h2 : c2 ∈ valid) (hne : c1 ≠ c2) :
    ¬(σ st.ID c1 = true ∧ σ st.ID c2 = true) := by
  obtain ⟨elig, tr, hE, hT, hvm, hcs⟩ := buildConstraints_ok hb
  obtain ⟨y, hy, hys⟩ := exMapM_ok_mem hE hst
  obtain ⟨hid, he2⟩ := stepElig_ok hys
  have hinj : (valid, inv) = (y.2.1, y.2.2) := by
    have h := helig.symm.trans he2
    injection h
  have hy21 : y.2.1 = valid := (congrArg Prod.fst hinj).symm
  have hsub : ∀ f ∈ stepBaseConstraints st.ID valid, f ∈ m.constraints := by
    intro f hf
    rw [hcs]
    refine List.mem_append.2 (Or.inl (baseConstraint_mem hy ?_))
    rw [hy21, hid]
    exact hf
  rintro ⟨ht1, ht2⟩
  exact hne (unique_true_of_sat hsub hσ h1 h2 ht1 ht2)

theorem at_most_one_selection_per_step_witness :
    ¬(sigTwo "S1" "R1::Heat" = true ∧ sigTwo "S1" "R2::Heat" = true) :=
  at_most_one_selection_per_step engTwoCaps mTwoCaps heatStep
    ["R1::Heat", "R2::Heat"] [] "R1::Heat" "R2::Heat" sigTwo
    (by decide) (by decide) (by decide) (by decide) (by decide) (by decide) (by decide)

theorem rangeReasons_eq_nil_iff (k : String) (req cap : Rng) :
    rangeReasons k req cap = [] ↔
      (∀ lo ∈ req.1, ∀ chi ∈ cap.2, ¬ chi < lo) ∧
      (∀ hi ∈ req.2, ∀ clo ∈ cap.1, ¬ clo > hi) := by
  obtain ⟨rl, rh⟩ := req
  obtain ⟨cl, ch⟩ := cap
  unfold rangeReasons
  cases rl <;> cases rh <;> cases cl <;> cases ch <;> dsimp only <;>
    first
      | (split_ifs <;> simp_all)
      | simp_all

/-- C3: for each required parameter, a capability is marked range-infeasible
exactly when its high bound is below the requirement's low bound or its low
bound is above the requirement's high bound, each comparison skipped when
the relevant bound is absent on either side; in particular an exact
requirement `v` against range `(lo, hi)` is feasible iff `lo ≤ v ≤ hi`
with absent bounds read as minus/plus infinity. -/
theorem range_infeasibility_characterization (k : String)
    (reqLo reqHi capLo capHi : Option ℚ) (v : ℚ) :
    (rangeReasons k (reqLo, reqHi) (capLo, capHi) ≠ [] ↔
      ((∃ lo ∈ reqLo, ∃ chi ∈ capHi, chi < lo) ∨
       (∃ hi ∈ reqHi, ∃ clo ∈ capLo, clo > hi))) ∧
    (rangeReasons k (some v, some v) (capLo, capHi) = [] ↔
      ((∀ clo ∈ capLo, clo ≤ v) ∧ (∀ chi ∈ capHi, v ≤ chi))) := by
  constructor
  · rw [Ne, rangeReasons_eq_nil_iff]
    dsimp only
    constructor
    · intro hne
      by_contra hc
      push_neg at hc
      refine hne ⟨fun lo hlo chi hchi => not_lt.2 (hc.1 lo hlo chi hchi), ?_⟩
      intro hi hhi clo hclo
      exact not_lt.2 (hc.2 hi hhi clo hclo)
    · rintro (⟨lo, hlo, chi, hchi, hlt⟩ | ⟨hi, hhi, clo, hclo, hgt⟩) ⟨hA, hB⟩
      · exact hA lo hlo chi hchi hlt
      · exact hB hi hhi clo hclo hgt
  · rw [rangeReasons_eq_nil_iff]
    dsimp only
    constructor
    · intro h
      refine ⟨fun clo hclo => ?_, fun chi hchi => ?_⟩
      · exact not_lt.1 (h.2 v rfl clo hclo)
      · exact not_lt.1 (h.1 v rfl chi hchi)
    · intro h
      refine ⟨fun lo hlo chi hchi => ?_, fun hi hhi clo hclo => ?_⟩
      · have hv : v = lo := by injection Option.mem_def.1 hlo
        subst hv
        exact not_lt.2 (h.2 chi hchi)
      · have hv : v = hi := by injection Option.mem_def.1 hhi
        subst hv
        exact not_lt.2 (h.1 clo hclo)

/-- C4: ancestor sets contain the type itself and are transitively closed,
and the worklist computation is total for every finite parent graph,
cycles included (the function is defined by well-founded recursion on the
unseen-parents measure, so its mere definedness settles termination; the
witness exercises it on the cyclic `cycHier`). -/
theorem ancestors_reflexive_transitive (h : List (String × List String)) (T P G : String)
    (hP : P ∈ get_all_ancestor_types h T) (hG : G ∈ get_all_ancestor_types h P) :
    T ∈ get_all_ancestor_types h T ∧ G ∈ get_all_ancestor_types h T := by
  constructor
  · exact (mem_ancestors_iff h T T).2 (Reach.refl T)
  · exact (mem_ancestors_iff h T G).2
      (Reach.trans_chain ((mem_ancestors_iff h T P).1 hP) ((mem_ancestors_iff h P G).1 hG))

theorem ancestors_reflexive_transitive_witness :
    "a" ∈ get_all_ancestor_types cycHier "a" ∧ "a" ∈ get_all_ancestor_types cycHier "a" :=
  ancestors_reflexive_transitive cycHier "a" "b" "a"
    ((mem_ancestors_iff cycHier "a" "b").2
      (Reach.step (Reach.refl "a") (by decide)))
    ((mem_ancestors_iff cycHier "b" "a").2
      (Reach.step (Reach.refl "b") (by decide)))

/-- C5 counterexample: on the literal Unicode example strings of the spec,
`parse_req` raises (the code only recognises the ASCII digraphs `>=` and
`<=`), so the claimed mapping of the string `"≥5"` to `(5, None)` and of
`"≤3.2"` to `(None, 3.2)` is false as stated. -/
theorem parse_req_unicode_examples_raise :
    parse_req "≥5" = .error () ∧ parse_req "≤3.2" = .error () := by
  exact ⟨by decide, by decide⟩

/-- C5 as amended: with the ASCII operators the code actually recognises,
`parse_req` maps `">=5"` to `(5, None)`, `"<=3.2"` to `(None, 3.2)`,
`"2-4"` to `(2, 4)` and `"7"` to `(7, 7)`. -/
theorem parse_req_ascii_examples :
    parse_req ">=5" = .ok (some 5, none) ∧
    parse_req "<=3.2" = .ok (none, some (3.2 : ℚ)) ∧
    parse_req "2-4" = .ok (some 2, some 4) ∧
    parse_req "7" = .ok (some 7, some 7) := by
  refine ⟨by decide, ?_, by decide, by decide⟩
  have h : parse_req "<=3.2" = .ok (none, some ((3 : ℚ) + (2 : ℚ) / 10 ^ 1)) := rfl
  rw [h]
  norm_num

/-- C10: every requirement string beginning with a minus sign — in
particular every negative numeric literal such as `"-5"` or `"-3.2"` —
makes `parse_req` raise instead of returning `(v, v)`: the strip keeps the
leading `'-'`, which is then taken as the range separator, so the string
splits into an empty left half and the rest, and `float('')` fails. -/
theorem negative_exact_requirement_raises (cs : List Char) :
    parseReqChars ('-' :: cs) = .error () := by
  obtain ⟨t, ht⟩ := trimChars_head_keep (a := '-') (by decide) cs
  have hgt : startsWith2 '>' '=' ('-' :: t) = false := by
    cases t with
    | nil => rfl
    | cons c cs' => rfl
  have hlt : startsWith2 '<' '=' ('-' :: t) = false := by
    cases t with
    | nil => rfl
    | cons c cs' => rfl
  have hcont : ('-' :: t).contains '-' = true := rfl
  have hsplit : splitOnChar '-' ('-' :: t) = [] :: splitOnChar '-' t := by
    rw [splitOnChar]
    simp only [beq_self_eq_true, if_true]
  rw [parseReqChars]
  simp only [ht, hgt, hlt, hcont, Bool.false_eq_true, if_false, if_true, hsplit]
  cases hsp : splitOnChar '-' t with
  | nil => exact absurd hsp (splitOnChar_ne_nil '-' t)
  | cons g gs =>
      cases gs with
      | nil => rfl
      | cons g2 gs2 => rfl

theorem negative_exact_requirement_raises_witness :
    parseReqChars ('-' :: ['3', '.', '2']) = .error () :=
  negative_exact_requirement_raises ['3', '.', '2']

/-- C6 counterexample: a malformed step requirement string (`temp = "abc"`)
that reaches the range check of an otherwise eligible capability makes
`build_constraints` raise to its caller, contradicting the claim that parse
errors are always recovered locally and never raised. -/
theorem parse_error_reaches_caller_cex : buildConstraints engBadReq = .error () := by
  decide

/-- C6 as amended: parse errors in capability property bounds are recovered
locally (the property is dropped from the range map, surfacing later at
worst as a missing-parameter rejection), but a malformed step requirement
string whose `parse_req` call is reached during model building is raised to
the caller of `build_constraints` rather than recovered. -/
theorem parse_error_recovery_amended :
    (∀ p : RawProp,
        (optFloat (pyOr p.valueMin p.value0) = none ∨
         optFloat (pyOr p.valueMax p.value1) = none) →
        buildProps [p] = []) ∧
    (∀ (e : Engine) (st : Step) (u : Unit), st ∈ e.steps →
        eligibleForStep e.cap_list st = .error u →
        ∃ u', buildConstraints e = .error u') := by
  constructor
  · exact fun p h => buildProps_single_drop p h
  · intro e st u hst helig
    obtain ⟨u', hu'⟩ := exMapM_error_of_mem hst (stepElig_error helig)
    exact ⟨u', buildConstraints_error_of_exMapM hu'⟩

theorem parse_error_recovery_amended_witness :
    ∃ u', buildConstraints engBadReq = .error u' :=
  parse_error_recovery_amended.2 engBadReq badStep () (by decide) (by decide)

/-- C7 counterexample: a property with a present `valueMin = 0` does not
yield a low bound of 0: the Python `or` chain treats the present-but-falsy
0 as absent and falls through to `value0 = 5`, so the stored range is
`(5, 10)` where the claim demands `(0, 10)`. -/
theorem value_min_zero_falls_back_cex :
    buildProps [⟨some "p", some (.num 0), some (.num 5), some (.num 10), none⟩]
      = [("p", (some 5, some 10))] ∧ (5 : ℚ) ≠ 0 :=
  ⟨by decide, by norm_num⟩

/-- C7 as amended: the normalized low bound is the float of `valueMin`
whenever that field is present and truthy (a nonzero number or nonempty
string), else of `value0` when truthy, else absent, and likewise the high
bound from `valueMax` / `value1`; a property whose chosen raw bound fails
numeric parsing is dropped from the capability's range map. -/
theorem capability_bound_extraction (p : RawProp) (pid : String)
    (hpid : p.property_ID = some pid) (hne : pid ≠ "") :
    (∀ lo hi, optFloat (pyOr p.valueMin p.value0) = some lo →
        optFloat (pyOr p.valueMax p.value1) = some hi →
        buildProps [p] = [(pid, (lo, hi))]) ∧
    ((optFloat (pyOr p.valueMin p.value0) = none ∨
      optFloat (pyOr p.valueMax p.value1) = none) →
        buildProps [p] = []) := by
  constructor
  · intro lo hi hlo hhi
    exact buildProps_single_keep p pid lo hi hpid hne hlo hhi
  · exact buildProps_single_drop p

theorem capability_bound_extraction_witness :
    buildProps [⟨some "q", some (.num 0), some (.str "7"), some (.num 9), none⟩]
      = [("q", (some 7, some 9))] :=
  (capability_bound_extraction
      ⟨some "q", some (.num 0), some (.str "7"), some (.num 9), none⟩ "q"
      (by decide) (by decide)).1
    (some 7) (some 9) (by decide) (by decide)

/-- C8 counterexample: an interior transport step with no explicit mode, no
identifier hint and no parameter hint need not resolve to `transfer`: with
resources already assigned (as after a previous solve), the material-flow
rule fires first and classifies this step as `discharge`. -/
theorem transport_mode_default_cex :
    determineTransportMode ["s1", "s2", "s3"]
        [("s1", "R1::a"), ("s2", "R1::b"), ("s3", "R2::c")]
        (⟨"s2", "dosing", []⟩ : Step) 1 = some "discharge" ∧
    (some "discharge" : Option String) ≠ some "transfer" :=
  ⟨by decide, by decide⟩

/-- C8 as amended: an interior transport-typed step with no explicit mode
parameter among feed/discharge/transfer, no identifier hint, and no
parameter-name hint resolves to `transfer`, provided the material-flow rule
does not decide either, as on a first run when no resources have been
assigned yet. -/
theorem transport_mode_default_amended (sids : List String) (st : Step) (j : Nat)
    (hj0 : j ≠ 0) (hjl : j ≠ sids.length - 1)
    (htype : TRANSPORT_TYPES.contains (lastHashLower st.SemanticDescription) = true)
    (hmode : ∀ p, st.Parameters.find? (fun q => pyLower q.Key = "mode") = some p →
        TRANSPORT_MODES.contains (pyTrim (pyLower p.ValueString)) = false)
    (hid : idHintMode (pyLower st.ID) = none)
    (hparam : paramHintMode st.Parameters = none) :
    determineTransportMode sids [] st j = some "transfer" :=
  determine_fresh_transfer sids st j hj0 hjl htype hmode hid hparam

theorem transport_mode_default_amended_witness :
    determineTransportMode ["s1", "s2", "s3"] [] (⟨"s2", "dosing", []⟩ : Step) 1
      = some "transfer" :=
  transport_mode_default_amended ["s1", "s2", "s3"] ⟨"s2", "dosing", []⟩ 1
    (by decide) (by decide) (by decide) (by intro p hp; cases hp) (by decide) (by decide)

/-- C9: repeating the model-build cycle with identical loaded inputs is
idempotent.  After a first `build_constraints` on a freshly loaded engine
and a satisfying solve (which stores the extracted resources in
`assigned_resources`), a second `build_constraints` on the same data
produces the same `BuildModel`: the same eligibility mappings, the same
selection variables and objective, and the same constraint list, hence the
same SAT/UNSAT outcome; an UNSAT first solve leaves the engine unchanged,
so that case is trivially identical. -/
theorem rebuild_after_solve_idempotent (e : Engine) (m : BuildModel)
    (σ : String → String → Bool)
    (hids : e.step_ids = e.steps.map Step.ID)
    (hnd : e.step_ids.Nodup)
    (hfresh : e.assigned_resources = [])
    (hb : buildConstraints e = .ok m)
    (hσ : satAssign σ m.constraints) :
    buildConstraints
      ⟨e.cap_list, e.steps, e.step_ids, extractAssigned σ e.step_ids m.valid_mapping⟩
      = .ok m := by
  obtain ⟨elig, tr, hE, hT, hvm, hcs⟩ := buildConstraints_ok hb
  rw [hfresh, ← hvm] at hT
  have hmodes := modes_after_solve_eq hids hnd hE hT hvm hcs hσ
  have hcongr := buildConstraints_congr_modes e
    ⟨e.cap_list, e.steps, e.step_ids, extractAssigned σ e.step_ids m.valid_mapping⟩
    rfl rfl rfl (by dsimp only; rw [hfresh]; exact hmodes)
  rw [hcongr]
  exact hb

theorem rebuild_after_solve_idempotent_witness :
    buildConstraints
      ⟨pipeEngine.cap_list, pipeEngine.steps, pipeEngine.step_ids,
       extractAssigned pipeSig pipeEngine.step_ids pipeModel.valid_mapping⟩
      = .ok pipeModel :=
  rebuild_after_solve_idempotent pipeEngine pipeModel pipeSig
    (by decide) (by decide) (by decide) (by decide) (by decide)

end CapMatcher
